import Mathlib

/-!
Verification of the algorithmic core of the mcp-kubernetes-ro server:

* line-oriented log filtering and "since" time parsing (internal/logfilter/filter.go),
* client-side pagination with opaque continue tokens (internal/handlers/metrics.go),
* resource type resolution against the discovery catalog (internal/kubernetes client).

Go strings are modelled as lists of unicode code points (`GoStr`); Go byte
slices as lists of naturals below 256; Go `int`/`int64` as `Int` (or `Nat`
where the source only ever produces non-negative values).  Calls into the Go
standard library that are external to this repository (regexp compilation and
matching, `time.ParseDuration`, `time.Parse`) are taken as explicit function
parameters, so every theorem quantifies over their behaviour; the standard
library pieces whose concrete behaviour the code's contracts depend on
(`encoding/base64` URL encoding, `encoding/json` marshalling of the small
`PaginationState` record, UTF-8 encoding) are modelled concretely.
-/

namespace K8sRO

/-- Go string model: a list of unicode code points (valid UTF-8 assumed). -/
abbrev GoStr := List Char

/-- Shorthand turning a Lean string literal into the Go string model. -/
def str (s : String) : GoStr := s.data

/-- `strings.Split(content, "\n")`: split on every newline; a trailing
    newline yields a final empty field, the empty string yields `[""]`. -/
def splitNL : GoStr → List GoStr
  | [] => [[]]
  | c :: rest =>
    if c = '\n' then [] :: splitNL rest
    else
      match splitNL rest with
      | [] => [[c]]
      | t :: ts => (c :: t) :: ts

/-- `strings.Join(lines, "\n")`. -/
def joinNL : List GoStr → GoStr
  | [] => []
  | [l] => l
  | l :: ls => l ++ '\n' :: joinNL ls

/-- Does `s` start with the sequence `pat`? (Helper for `goContains`.) -/
def startsWithSeq : GoStr → GoStr → Bool
  | _, [] => true
  | [], _ :: _ => false
  | a :: as, b :: bs => a == b && startsWithSeq as bs

/-- `strings.Contains(hay, pat)`.  Go checks byte-level substring
    containment; on valid UTF-8 this coincides with code-point-level
    containment because UTF-8 is self-synchronizing. -/
def goContains : GoStr → GoStr → Bool
  | hay, pat =>
    startsWithSeq hay pat ||
      match hay with
      | [] => false
      | _ :: t => goContains t pat

/-- One character of Go `strconv.Quote` / `%q` output.  The source only ever
    quotes pattern strings and resource aliases; ASCII control characters are
    rendered with the common backslash escapes as Go does (rare non-printable
    non-ASCII cases are rendered verbatim here). -/
def goQuoteChar (c : Char) : GoStr :=
  if c = '"' then ['\\', '"']
  else if c = '\\' then ['\\', '\\']
  else if c = '\n' then ['\\', 'n']
  else if c = '\r' then ['\\', 'r']
  else if c = '\t' then ['\\', 't']
  else [c]

/-- Go `%q` rendering of a string (see `goQuoteChar`). -/
def goQuote (s : GoStr) : GoStr := '"' :: s.flatMap goQuoteChar ++ ['"']

namespace logfilter

/-- internal/logfilter/filter.go: `FilterOptions`. -/
structure FilterOptions where
  grepInclude : List GoStr
  grepExclude : List GoStr
  useRegex : Bool
deriving DecidableEq

/-- The compile loops of `FilterLogs` and `ValidateFilterOptions`: compile
    every pattern with Go's `regexp.Compile` (abstracted as `compile`),
    stopping at the first failure with the error message built by the source
    (`"invalid include regex pattern %q: %w"` resp. `exclude`). -/
def compileList {RE : Type} (compile : GoStr → Except GoStr RE) (kindName : GoStr) :
    List GoStr → Except GoStr (List RE)
  | [] => .ok []
  | p :: ps =>
    match compile p with
    | .error e =>
        .error (str "invalid " ++ kindName ++ str " regex pattern " ++ goQuote p ++ str ": " ++ e)
    | .ok re =>
        match compileList compile kindName ps with
        | .error e => .error e
        | .ok res => .ok (re :: res)

/-- The per-line matching loop of `FilterLogs`: in regex mode run the
    compiled patterns, otherwise `strings.Contains` on the raw patterns;
    `break` on the first match (= `List.any`). -/
def lineMatchesAny {RE : Type} (mtch : RE → GoStr → Bool) (useRegex : Bool)
    (compiled : List RE) (pats : List GoStr) (line : GoStr) : Bool :=
  if useRegex then compiled.any (fun re => mtch re line)
  else pats.any (fun p => goContains line p)

/-- The line-processing loop of `FilterLogs` (source lines 78-131), with the
    accumulated `filteredLines` made explicit.  Note the first branch drops
    any empty line as soon as at least one line has been kept. -/
def filterLoop {RE : Type} (mtch : RE → GoStr → Bool) (o : FilterOptions)
    (incs excs : List RE) : List GoStr → List GoStr → List GoStr
  | [], acc => acc
  | line :: rest, acc =>
    if line.isEmpty && !acc.isEmpty then
      filterLoop mtch o incs excs rest acc
    else if 0 < o.grepInclude.length
        && !lineMatchesAny mtch o.useRegex incs o.grepInclude line then
      filterLoop mtch o incs excs rest acc
    else if 0 < o.grepExclude.length
        && lineMatchesAny mtch o.useRegex excs o.grepExclude line then
      filterLoop mtch o incs excs rest acc
    else
      filterLoop mtch o incs excs rest (acc ++ [line])

/-- internal/logfilter/filter.go: `FilterLogs`. -/
def FilterLogs {RE : Type} (compile : GoStr → Except GoStr RE) (mtch : RE → GoStr → Bool)
    (opts : Option FilterOptions) (content : GoStr) : Except GoStr GoStr :=
  match opts with
  | none => .ok content
  | some o =>
    match (if o.useRegex then compileList compile (str "include") o.grepInclude else .ok []) with
    | .error e => .error e
    | .ok incs =>
      match (if o.useRegex then compileList compile (str "exclude") o.grepExclude else .ok []) with
      | .error e => .error e
      | .ok excs => .ok (joinNL (filterLoop mtch o incs excs (splitNL content) []))

/-- internal/logfilter/filter.go: `CountMatchingLines`. -/
def CountMatchingLines {RE : Type} (compile : GoStr → Except GoStr RE)
    (mtch : RE → GoStr → Bool) (opts : Option FilterOptions) (content : GoStr) :
    Except GoStr Nat :=
  match FilterLogs compile mtch opts content with
  | .error e => .error e
  | .ok filtered => if filtered.isEmpty then .ok 0 else .ok (splitNL filtered).length

/-- internal/logfilter/filter.go: `ValidateFilterOptions`. -/
def ValidateFilterOptions {RE : Type} (compile : GoStr → Except GoStr RE)
    (opts : Option FilterOptions) : Except GoStr Unit :=
  match opts with
  | none => .ok ()
  | some o =>
    if o.useRegex then
      match compileList compile (str "include") o.grepInclude with
      | .error e => .error e
      | .ok _ =>
        match compileList compile (str "exclude") o.grepExclude with
        | .error e => .error e
        | .ok _ => .ok ()
    else .ok ()

/-- `strings.HasSuffix(s, "d")`. -/
def endsWithD (s : GoStr) : Bool :=
  match s.getLast? with
  | some c => c == 'd'
  | none => false

/-- internal/logfilter/filter.go: `parseDuration`, the repository's extension
    of Go's `time.ParseDuration` (abstracted as `gpd`, returning the span in
    nanoseconds) with a day suffix: `Nd` is parsed as `N` hours times 24. -/
def parseDuration (gpd : GoStr → Option Int) (s : GoStr) : Option Int :=
  if endsWithD s then
    match gpd (s.dropLast ++ ['h']) with
    | some days => some (days * 24)
    | none => gpd s
  else gpd s

/-- The ordered format list of `ParseSinceTime` (RFC3339, RFC3339Nano, then
    the four hand-written layouts). -/
def timeFormats : List GoStr :=
  [str "2006-01-02T15:04:05Z07:00",
   str "2006-01-02T15:04:05.999999999Z07:00",
   str "2006-01-02T15:04:05Z",
   str "2006-01-02T15:04:05",
   str "2006-01-02 15:04:05",
   str "2006-01-02"]

/-- The format loop of `ParseSinceTime`: first layout (under Go's
    `time.Parse`, abstracted as `gtp`) that parses the whole string wins. -/
def firstFormat {TT : Type} (gtp : GoStr → GoStr → Option TT) (s : GoStr) :
    List GoStr → Option TT
  | [] => none
  | f :: fs =>
    match gtp f s with
    | some t => some t
    | none => firstFormat gtp s fs

/-- internal/logfilter/filter.go: `ParseSinceTime`.  `Int.tdiv d 1000000000`
    models `int64(duration.Seconds())` (truncation toward zero). -/
def ParseSinceTime {TT : Type} (gpd : GoStr → Option Int)
    (gtp : GoStr → GoStr → Option TT) (since : GoStr) :
    Except GoStr (Option TT × Option Int) :=
  if since.isEmpty then .ok (none, none)
  else
    match parseDuration gpd since with
    | some d => .ok (none, some (Int.tdiv d 1000000000))
    | none =>
      match firstFormat gtp since timeFormats with
      | some t => .ok (some t, none)
      | none => .error (str "invalid since time format: " ++ since)

/-- The survival predicate of spec §4.3 Contract B: a line survives iff the
    include list is empty or some include pattern matches, and no exclude
    pattern matches (exclusion after inclusion). -/
def survives {RE : Type} (mtch : RE → GoStr → Bool) (o : FilterOptions)
    (incs excs : List RE) (line : GoStr) : Bool :=
  (o.grepInclude.isEmpty || lineMatchesAny mtch o.useRegex incs o.grepInclude line)
  && !lineMatchesAny mtch o.useRegex excs o.grepExclude line

/-- Modelled from the amended claim: the lines `FilterLogs` keeps on
    arbitrary input, stated without the loop's accumulator — the first
    pattern-survivor in input order, then every later non-empty
    pattern-survivor.  Proven equal to the accumulator loop
    (`filterLoop_keptLines`); the empty-line guard of the source is what
    restricts the tail to non-empty lines. -/
def keptLines {RE : Type} (mtch : RE → GoStr → Bool) (o : FilterOptions)
    (incs excs : List RE) (lines : List GoStr) : List GoStr :=
  match lines.filter (fun l => survives mtch o incs excs l) with
  | [] => []
  | x :: rest => x :: rest.filter (fun l => !l.isEmpty)

end logfilter

/-- A trivial instantiation of the abstract regexp compiler (always succeeds),
    used to exercise the literal-mode paths on concrete inputs. -/
def unitCompile : GoStr → Except GoStr Unit := fun _ => .ok ()

/-- A trivial instantiation of the abstract regexp matcher (never matches). -/
def unitMatch : Unit → GoStr → Bool := fun _ _ => false

/-- Concrete filter options: literal mode, no patterns. -/
def emptyOpts : logfilter.FilterOptions := ⟨[], [], false⟩

/-- Witness instantiation for the abstract `time.ParseDuration`: knows only
    that one hour is 3 600 000 000 000 nanoseconds. -/
def oneHourPD : GoStr → Option Int :=
  fun s => if s = str "1h" then some 3600000000000 else none

/-- Witness instantiation for the abstract `time.Parse`: never succeeds. -/
def noTimeParse : GoStr → GoStr → Option Unit := fun _ _ => none

instance {ε α : Type} [DecidableEq ε] [DecidableEq α] : DecidableEq (Except ε α) :=
  fun x y =>
    match x, y with
    | .ok a, .ok b =>
      if h : a = b then .isTrue (by rw [h]) else .isFalse (by intro hc; cases hc; exact h rfl)
    | .ok _, .error _ => .isFalse (by intro hc; cases hc)
    | .error _, .ok _ => .isFalse (by intro hc; cases hc)
    | .error a, .error b =>
      if h : a = b then .isTrue (by rw [h]) else .isFalse (by intro hc; cases hc; exact h rfl)

/-- Go byte slice model. -/
abbrev GoBytes := List Nat

/-- UTF-8 encoding of a single code point (RFC 3629). -/
def utf8Char (c : Char) : GoBytes :=
  if c.toNat < 0x80 then [c.toNat]
  else if c.toNat < 0x800 then [0xC0 + c.toNat / 0x40, 0x80 + c.toNat % 0x40]
  else if c.toNat < 0x10000 then
    [0xE0 + c.toNat / 0x1000, 0x80 + (c.toNat / 0x40) % 0x40, 0x80 + c.toNat % 0x40]
  else
    [0xF0 + c.toNat / 0x40000, 0x80 + (c.toNat / 0x1000) % 0x40,
      0x80 + (c.toNat / 0x40) % 0x40, 0x80 + c.toNat % 0x40]

/-- UTF-8 encoding of a string (Go strings are their UTF-8 bytes). -/
def utf8Str (s : GoStr) : GoBytes := s.flatMap utf8Char

/-- One step of strict UTF-8 decoding: the first code point and the
    remaining bytes; `none` on malformed input (overlong forms, surrogates,
    out-of-range, truncation). -/
def utf8DecodeStep : GoBytes → Option (Char × GoBytes)
  | [] => none
  | b0 :: rest =>
    if b0 < 0x80 then some (Char.ofNat b0, rest)
    else if 0xC2 ≤ b0 ∧ b0 < 0xE0 then
      match rest with
      | b1 :: rest2 =>
        if 0x80 ≤ b1 ∧ b1 < 0xC0 then
          some (Char.ofNat ((b0 - 0xC0) * 0x40 + (b1 - 0x80)), rest2)
        else none
      | [] => none
    else if 0xE0 ≤ b0 ∧ b0 < 0xF0 then
      match rest with
      | b1 :: b2 :: rest2 =>
        if (0x80 ≤ b1 ∧ b1 < 0xC0) ∧ (0x80 ≤ b2 ∧ b2 < 0xC0) then
          if 0x800 ≤ (b0 - 0xE0) * 0x1000 + (b1 - 0x80) * 0x40 + (b2 - 0x80)
              ∧ ((b0 - 0xE0) * 0x1000 + (b1 - 0x80) * 0x40 + (b2 - 0x80) < 0xD800
                ∨ 0xDFFF < (b0 - 0xE0) * 0x1000 + (b1 - 0x80) * 0x40 + (b2 - 0x80)) then
            some (Char.ofNat ((b0 - 0xE0) * 0x1000 + (b1 - 0x80) * 0x40 + (b2 - 0x80)), rest2)
          else none
        else none
      | _ => none
    else if 0xF0 ≤ b0 ∧ b0 < 0xF5 then
      match rest with
      | b1 :: b2 :: b3 :: rest2 =>
        if (0x80 ≤ b1 ∧ b1 < 0xC0) ∧ (0x80 ≤ b2 ∧ b2 < 0xC0) ∧ (0x80 ≤ b3 ∧ b3 < 0xC0) then
          if 0x10000 ≤ (b0 - 0xF0) * 0x40000 + (b1 - 0x80) * 0x1000 + (b2 - 0x80) * 0x40 + (b3 - 0x80)
              ∧ (b0 - 0xF0) * 0x40000 + (b1 - 0x80) * 0x1000 + (b2 - 0x80) * 0x40 + (b3 - 0x80)
                < 0x110000 then
            some (Char.ofNat ((b0 - 0xF0) * 0x40000 + (b1 - 0x80) * 0x1000
              + (b2 - 0x80) * 0x40 + (b3 - 0x80)), rest2)
          else none
        else none
      | _ => none
    else none

/-- Fueled UTF-8 decoding loop (each step consumes at least one byte, so
    the byte count is enough fuel). -/
def utf8DecodeF : Nat → GoBytes → Option GoStr
  | 0, bs => if bs.isEmpty then some [] else none
  | fuel + 1, bs =>
    if bs.isEmpty then some []
    else
      match utf8DecodeStep bs with
      | some (c, rest) => (utf8DecodeF fuel rest).map (fun cs => c :: cs)
      | none => none

/-- Strict UTF-8 decoding of a byte slice. -/
def utf8Decode (bs : GoBytes) : Option GoStr := utf8DecodeF bs.length bs

/-- Digit `v < 64` of the URL-safe base64 alphabet (`encoding/base64`,
    `URLEncoding`: A-Z, a-z, 0-9, -, _). -/
def b64Digit (v : Nat) : Char :=
  if v < 26 then Char.ofNat (65 + v)
  else if v < 52 then Char.ofNat (97 + v - 26)
  else if v < 62 then Char.ofNat (48 + v - 52)
  else if v = 62 then '-' else '_'

/-- Value of a URL-safe base64 alphabet character; `none` outside it. -/
def b64Val (c : Char) : Option Nat :=
  let n := c.toNat
  if 65 ≤ n ∧ n ≤ 90 then some (n - 65)
  else if 97 ≤ n ∧ n ≤ 122 then some (n - 97 + 26)
  else if 48 ≤ n ∧ n ≤ 57 then some (n - 48 + 52)
  else if c = '-' then some 62
  else if c = '_' then some 63
  else none

/-- Is `c` in the URL-safe base64 alphabet? (Excludes the `'='` pad.) -/
def urlSafeB64Char (c : Char) : Bool := (b64Val c).isSome

/-- `base64.URLEncoding.EncodeToString`: Go's URL-safe alphabet **with**
    `'='` padding to a multiple of four characters. -/
def b64Encode : GoBytes → GoStr
  | [] => []
  | [b0] => [b64Digit (b0 / 4), b64Digit (b0 % 4 * 16), '=', '=']
  | [b0, b1] => [b64Digit (b0 / 4), b64Digit (b0 % 4 * 16 + b1 / 16), b64Digit (b1 % 16 * 4), '=']
  | b0 :: b1 :: b2 :: rest =>
    b64Digit (b0 / 4) :: b64Digit (b0 % 4 * 16 + b1 / 16) ::
      b64Digit (b1 % 16 * 4 + b2 / 64) :: b64Digit (b2 % 64) :: b64Encode rest

/-- `base64.URLEncoding.DecodeString`: requires padded four-character
    blocks over the URL-safe alphabet; `none` models `CorruptInputError`.
    (Go's default decoder does not insist that unused trailing bits be
    zero, so no such check appears here.) -/
def b64Decode : GoStr → Option GoBytes
  | [] => some []
  | c0 :: c1 :: c2 :: c3 :: rest =>
    if rest.isEmpty ∧ c2 = '=' ∧ c3 = '=' then
      match b64Val c0, b64Val c1 with
      | some v0, some v1 => some [v0 * 4 + v1 / 16]
      | _, _ => none
    else if rest.isEmpty ∧ c3 = '=' then
      match b64Val c0, b64Val c1, b64Val c2 with
      | some v0, some v1, some v2 => some [v0 * 4 + v1 / 16, v1 % 16 * 16 + v2 / 4]
      | _, _, _ => none
    else
      match b64Val c0, b64Val c1, b64Val c2, b64Val c3 with
      | some v0, some v1, some v2, some v3 =>
        (b64Decode rest).map
          (fun bs => (v0 * 4 + v1 / 16) :: (v1 % 16 * 16 + v2 / 4) :: (v2 % 4 * 64 + v3) :: bs)
      | _, _, _, _ => none
  | _ => none

/-- Lower-case hex digit (the `encoding/json` escape table). -/
def hexDig (n : Nat) : Char :=
  if n < 10 then Char.ofNat (48 + n) else Char.ofNat (87 + n)

/-- One character of `encoding/json` string escaping with the default
    HTML-safe encoder used by `json.Marshal`. -/
def jsonEscChar (c : Char) : GoStr :=
  if c = '"' then ['\\', '"']
  else if c = '\\' then ['\\', '\\']
  else if c = '\n' then ['\\', 'n']
  else if c = '\r' then ['\\', 'r']
  else if c = '\t' then ['\\', 't']
  else if c.toNat < 0x20 then ['\\', 'u', '0', '0', hexDig (c.toNat / 16), hexDig (c.toNat % 16)]
  else if c = '<' then ['\\', 'u', '0', '0', '3', 'c']
  else if c = '>' then ['\\', 'u', '0', '0', '3', 'e']
  else if c = '&' then ['\\', 'u', '0', '0', '2', '6']
  else if c.toNat = 0x2028 then ['\\', 'u', '2', '0', '2', '8']
  else if c.toNat = 0x2029 then ['\\', 'u', '2', '0', '2', '9']
  else [c]

/-- `encoding/json` string escaping. -/
def jsonEscape (s : GoStr) : GoStr := s.flatMap jsonEscChar

/-- Decimal digits of a natural number below `fuel` (structural recursion
    on the fuel so that concrete tokens evaluate inside the kernel). -/
def natDigitsF : Nat → Nat → GoStr
  | 0, _ => []
  | fuel + 1, n =>
    if n < 10 then [Char.ofNat (48 + n)]
    else natDigitsF fuel (n / 10) ++ [Char.ofNat (48 + n % 10)]

/-- Decimal digits of a natural number (`strconv` base-10). -/
def natDigits (n : Nat) : GoStr := natDigitsF (n + 1) n

/-- Base-10 rendering of a Go integer. -/
def intChars (i : Int) : GoStr :=
  if i < 0 then '-' :: natDigits i.natAbs else natDigits i.toNat

namespace handlers

/-- internal/handlers/metrics.go: `PaginationState`.  `ptype` models the Go
    field `Type` (json tag `type`), `pnamespace` the field `Namespace`
    (json tag `namespace,omitempty`). -/
structure PaginationState where
  offset : Int
  ptype : GoStr
  pnamespace : GoStr
deriving DecidableEq

/-- The member list of the marshalled `PaginationState` object: Go emits
    struct fields in declaration order, renders `Offset` in decimal, escapes
    the string fields, and omits `namespace` when empty (`omitempty`). -/
def marshalBody (st : PaginationState) : GoStr :=
  str "\"offset\":" ++ intChars st.offset
    ++ str ",\"type\":\"" ++ jsonEscape st.ptype ++ str "\""
    ++ (if st.pnamespace.isEmpty then []
        else str ",\"namespace\":\"" ++ jsonEscape st.pnamespace ++ str "\"")
    ++ ['}']

/-- `json.Marshal` of a `PaginationState` (see `marshalBody`). -/
def marshalState (st : PaginationState) : GoStr := '{' :: marshalBody st

/-- Hex digit value for `\uXXXX` escapes (both cases accepted). -/
def hexVal (c : Char) : Option Nat :=
  let n := c.toNat
  if 48 ≤ n ∧ n ≤ 57 then some (n - 48)
  else if 97 ≤ n ∧ n ≤ 102 then some (n - 97 + 10)
  else if 65 ≤ n ∧ n ≤ 70 then some (n - 65 + 10)
  else none

/-- One unit of JSON string body parsing (input starts after the opening
    quote): `some (none, rest)` at the closing quote, `some (some ch, rest)`
    for one decoded character.  Unpaired `\u` surrogate halves become U+FFFD
    as in Go's decoder (surrogate-pair recombination is not modelled;
    `json.Marshal` never emits halves). -/
def parseStrChunk : GoStr → Option (Option Char × GoStr)
  | [] => none
  | c :: rest =>
    if c = '"' then some (none, rest)
    else if c = '\\' then
      match rest with
      | [] => none
      | e :: rest2 =>
        if e = '"' then some (some '"', rest2)
        else if e = '\\' then some (some '\\', rest2)
        else if e = '/' then some (some '/', rest2)
        else if e = 'b' then some (some (Char.ofNat 8), rest2)
        else if e = 'f' then some (some (Char.ofNat 12), rest2)
        else if e = 'n' then some (some '\n', rest2)
        else if e = 'r' then some (some '\r', rest2)
        else if e = 't' then some (some '\t', rest2)
        else if e = 'u' then
          match rest2 with
          | h1 :: h2 :: h3 :: h4 :: rest3 =>
            match hexVal h1, hexVal h2, hexVal h3, hexVal h4 with
            | some a, some b, some c2, some d =>
              some (some (if Nat.isValidChar (a * 4096 + b * 256 + c2 * 16 + d) then
                  Char.ofNat (a * 4096 + b * 256 + c2 * 16 + d)
                else Char.ofNat 0xFFFD), rest3)
            | _, _, _, _ => none
          | _ => none
        else none
    else some (some c, rest)

/-- Fueled JSON string body parsing loop (each unit consumes at least one
    character). -/
def parseStringBodyF : Nat → GoStr → Option (GoStr × GoStr)
  | 0, _ => none
  | fuel + 1, l =>
    match parseStrChunk l with
    | some (none, rest) => some ([], rest)
    | some (some ch, rest) => (parseStringBodyF fuel rest).map (fun p => (ch :: p.1, p.2))
    | none => none

/-- JSON string body parser: the decoded contents and the rest after the
    closing quote. -/
def parseStringBody (l : GoStr) : Option (GoStr × GoStr) := parseStringBodyF l.length l

/-- Decimal digit value. -/
def digitVal (c : Char) : Option Nat :=
  if 48 ≤ c.toNat ∧ c.toNat ≤ 57 then some (c.toNat - 48) else none

/-- Greedy decimal digit accumulation. -/
def parseDigitsAux (acc : Nat) : GoStr → Nat × GoStr
  | [] => (acc, [])
  | c :: rest =>
    match digitVal c with
    | some d => parseDigitsAux (acc * 10 + d) rest
    | none => (acc, c :: rest)

/-- JSON integer parser (optional minus sign, one or more digits).  JSON
    numbers with a fraction or exponent cannot be unmarshalled into the
    `int` field `Offset` and are not produced by `marshalState`; they are
    rejected here. -/
def parseIntJ : GoStr → Option (Int × GoStr)
  | [] => none
  | c :: rest =>
    if c = '-' then
      match rest with
      | c2 :: _ =>
        if (digitVal c2).isSome then
          some (-((parseDigitsAux 0 rest).1 : Int), (parseDigitsAux 0 rest).2)
        else none
      | [] => none
    else if (digitVal c).isSome then
      some (((parseDigitsAux 0 (c :: rest)).1 : Int), (parseDigitsAux 0 (c :: rest)).2)
    else none

/-- The first character, if any, is not a decimal digit (where the greedy
    digit scan stops). -/
def noLeadDigit : GoStr → Prop
  | [] => True
  | c :: _ => digitVal c = none

/-- One member of the object behind `json.Unmarshal` for `PaginationState`:
    a quoted key, a colon, and a value folded into the struct; the known
    fields take `int` resp. string values, unknown fields with scalar values
    are skipped. -/
def parseMember (st : PaginationState) : GoStr → Option (PaginationState × GoStr)
  | '"' :: rest =>
    match parseStringBody rest with
    | none => none
    | some (key, r1) =>
      match r1 with
      | ':' :: r2 =>
        if key = str "offset" then
          match parseIntJ r2 with
          | some (v, r3) => some ({ st with offset := v }, r3)
          | none => none
        else if key = str "type" then
          match r2 with
          | '"' :: r2b => (parseStringBody r2b).map (fun p => ({ st with ptype := p.1 }, p.2))
          | _ => none
        else if key = str "namespace" then
          match r2 with
          | '"' :: r2b =>
            (parseStringBody r2b).map (fun p => ({ st with pnamespace := p.1 }, p.2))
          | _ => none
        else
          match r2 with
          | '"' :: r2b => (parseStringBody r2b).map (fun p => (st, p.2))
          | _ => (parseIntJ r2).map (fun p => (st, p.2))
      | _ => none
  | _ => none

/-- After a member's value: a comma continues the member list, a closing
    brace ends the object. -/
def afterValue : GoStr → Option (Bool × GoStr)
  | ',' :: r4 => some (true, r4)
  | '}' :: r4 => some (false, r4)
  | _ => none

/-- Member loop of the object parser behind `json.Unmarshal` for
    `PaginationState`: fields in any order fold into the struct, `}` ends
    the object.  `fuel` bounds the recursion (callers pass the input
    length). -/
def parseObjBody : Nat → PaginationState → GoStr → Option (PaginationState × GoStr)
  | 0, _, _ => none
  | fuel + 1, st, l =>
    match l with
    | [] => none
    | c :: rest =>
      if c = '}' then some (st, rest)
      else
        match parseMember st (c :: rest) with
        | none => none
        | some (st2, r3) =>
          match afterValue r3 with
          | some (true, r4) => parseObjBody fuel st2 r4
          | some (false, r4) => some (st2, r4)
          | none => none

/-- `json.Unmarshal(data, &state)` for `PaginationState`: decode the UTF-8
    bytes, parse one object, require no trailing data. -/
def unmarshalState (bs : GoBytes) : Option PaginationState :=
  match utf8Decode bs with
  | none => none
  | some chars =>
    match chars with
    | '{' :: rest =>
      match parseObjBody chars.length ⟨0, [], []⟩ rest with
      | some (st, r) => if r.isEmpty then some st else none
      | none => none
    | _ => none

/-- internal/handlers/metrics.go: `generateContinueToken`. -/
def generateContinueToken (offset : Int) (itemType namespaceArg : GoStr) : GoStr :=
  b64Encode (utf8Str (marshalState ⟨offset, itemType, namespaceArg⟩))

/-- internal/handlers/metrics.go: `parseContinueToken`. -/
def parseContinueToken (token : GoStr) : Except GoStr PaginationState :=
  if token.isEmpty then .ok ⟨0, [], []⟩
  else
    match b64Decode token with
    | none => .error (str "invalid continue token: illegal base64 data")
    | some bs =>
      match unmarshalState bs with
      | none => .error (str "invalid continue token format: json unmarshal error")
      | some st => .ok st

/-- internal/handlers/metrics.go: `paginateItems`.  `none` models the Go
    run-time panic on an invalid slice expression (negative offset or
    negative limit); otherwise the page `items[offset:end]` and `hasMore`. -/
def paginateItems {α : Type} (items : List α) (limit offset : Int) :
    Option (List α × Bool) :=
  if (items.length : Int) ≤ offset then some ([], false)
  else if 0 ≤ offset ∧ offset ≤ (if (items.length : Int) < offset + limit
      then (items.length : Int) else offset + limit) then
    some ((items.drop offset.toNat).take
        ((if (items.length : Int) < offset + limit
          then (items.length : Int) else offset + limit) - offset).toNat,
      decide (offset + limit < (items.length : Int)))
  else none

/-- The pagination path of `GetNodeMetrics` (params.Limit > 0): parse the
    continue token, paginate, and on `hasMore` emit a new token at
    `offset + limit` with kind `"node"` and empty namespace.  The handler
    performs no validation of the token's kind. -/
def GetNodeMetricsPage {α : Type} (items : List α) (limit : Int) (token : GoStr) :
    Except GoStr (List α × Option GoStr) :=
  match parseContinueToken token with
  | .error e => .error (str "invalid continue token: " ++ e)
  | .ok st =>
    match paginateItems items limit st.offset with
    | none => .error (str "panic: slice bounds out of range")
    | some (page, hasMore) =>
      .ok (page,
        if hasMore then some (generateContinueToken (st.offset + limit) (str "node") [])
        else none)

/-- The pagination path of `GetPodMetrics` (params.Limit > 0): parse the
    token, reject a non-empty kind other than `"pod"`, silently reset the
    offset when the token's namespace differs from the request's, paginate,
    and on `hasMore` emit a new token at `offset + limit` with kind
    `"pod"` and the request namespace. -/
def GetPodMetricsPage {α : Type} (items : List α) (limit : Int) (ns token : GoStr) :
    Except GoStr (List α × Option GoStr) :=
  match parseContinueToken token with
  | .error e => .error (str "invalid continue token: " ++ e)
  | .ok st =>
    if st.ptype ≠ [] ∧ st.ptype ≠ str "pod" then
      .error (str "continue token is not valid for pod metrics")
    else
      let st2 := if st.pnamespace ≠ ns then { st with offset := 0 } else st
      match paginateItems items limit st2.offset with
      | none => .error (str "panic: slice bounds out of range")
      | some (page, hasMore) =>
        .ok (page,
          if hasMore then some (generateContinueToken (st2.offset + limit) (str "pod") ns)
          else none)

/-- Repeatedly calling the node-metrics pagination, starting from a given
    token and feeding each returned continue token into the next call;
    collects the concatenation of all pages.  `none` when an error occurs
    or the fuel runs out before the chain terminates. -/
def nodeChain {α : Type} (items : List α) (limit : Int) : GoStr → Nat → Option (List α)
  | _, 0 => none
  | tok, fuel + 1 =>
    match GetNodeMetricsPage items limit tok with
    | .error _ => none
    | .ok (page, none) => some page
    | .ok (page, some tok2) => (nodeChain items limit tok2 fuel).map (fun t => page ++ t)

end handlers

namespace kubernetes

/-- `metav1.APIResource`, the fields `ResolveResourceType` reads. -/
structure APIResource where
  name : GoStr
  singularName : GoStr
  kind : GoStr
  shortNames : List GoStr
deriving DecidableEq

/-- `metav1.APIResourceList`: one discovery group/version with its
    resources, as returned by `ServerPreferredResources`. -/
structure APIResourceList where
  groupVersion : GoStr
  apiResources : List APIResource
deriving DecidableEq

/-- `schema.GroupVersion`. -/
structure GroupVersion where
  group : GoStr
  version : GoStr
deriving DecidableEq

/-- `schema.GroupVersionResource`. -/
structure GroupVersionResource where
  group : GoStr
  version : GoStr
  resource : GoStr
deriving DecidableEq

/-- `schema.ParseGroupVersion` (k8s.io/apimachinery): empty or `"/"` parse
    as the empty group/version; no slash means a bare version in the core
    group; one slash splits group and version; more slashes are an error. -/
def parseGroupVersion (gv : GoStr) : Option GroupVersion :=
  if gv = [] ∨ gv = ['/'] then some ⟨[], []⟩
  else if gv.count '/' = 0 then some ⟨[], gv⟩
  else if gv.count '/' = 1 then
    some ⟨gv.takeWhile (fun c => ¬ c = '/'), (gv.dropWhile (fun c => ¬ c = '/')).tail⟩
  else none

/-- `strings.ToLower`, restricted to ASCII case mapping (resource names and
    aliases are ASCII; Go's full Unicode mapping agrees on them). -/
def goToLowerChar (c : Char) : Char :=
  if 'A' ≤ c ∧ c ≤ 'Z' then Char.ofNat (c.toNat + 32) else c

/-- `strings.ToLower` on a string. -/
def goToLower (s : GoStr) : GoStr := s.map goToLowerChar

/-- The `resourceInfo` record of `ResolveResourceType`. -/
structure ResourceInfo where
  gvr : GroupVersionResource
  apiVersion : GoStr
deriving DecidableEq

/-- Lookup in the model of the Go map `nameToResource` (most recent
    insertion wins, matching Go's assignment semantics). -/
def mapLookup (m : List (GoStr × ResourceInfo)) (k : GoStr) : Option ResourceInfo :=
  match m.find? (fun p => p.1 = k) with
  | some p => some p.2
  | none => none

/-- The state threaded through the registration loops of
    `ResolveResourceType`: the alias map and the collected names for the
    error message. -/
structure BuildState where
  nameToResource : List (GoStr × ResourceInfo)
  allResourceNames : List GoStr
deriving DecidableEq

/-- The name list registered for one resource: plural name, singular name,
    kind, then the short names. -/
def resourceNames (r : APIResource) : List GoStr :=
  r.name :: r.singularName :: r.kind :: r.shortNames

/-- Registering one name (source lines 511-526): skip empty names; write
    the map entry when the alias is new or when the existing registration's
    version differs from a non-empty version hint that the new entry
    matches; collect the name for the error message when the hint is empty
    or the list's group/version equals it. -/
def processName (apiVersion listGV : GoStr) (info : ResourceInfo)
    (st : BuildState) (nm : GoStr) : BuildState :=
  if nm = [] then st
  else
    { nameToResource :=
        match mapLookup st.nameToResource (goToLower nm) with
        | none => (goToLower nm, info) :: st.nameToResource
        | some ex =>
          if apiVersion ≠ [] ∧ ex.apiVersion ≠ apiVersion ∧ info.apiVersion = apiVersion
          then (goToLower nm, info) :: st.nameToResource
          else st.nameToResource,
      allResourceNames :=
        if apiVersion = [] ∨ listGV = apiVersion
        then st.allResourceNames ++ [nm]
        else st.allResourceNames }

/-- Registering one resource (source lines 489-527): skip subresources
    (names containing a slash), then register every name form. -/
def processResource (apiVersion listGV : GoStr) (gv : GroupVersion)
    (st : BuildState) (r : APIResource) : BuildState :=
  if goContains r.name ['/'] then st
  else
    (resourceNames r).foldl
      (processName apiVersion listGV ⟨⟨gv.group, gv.version, r.name⟩, listGV⟩) st

/-- Registering one discovery list (source lines 478-528): skip lists whose
    group/version does not match a non-empty hint and lists whose
    group/version fails to parse. -/
def processList (apiVersion : GoStr) (st : BuildState) (l : APIResourceList) : BuildState :=
  if apiVersion ≠ [] ∧ l.groupVersion ≠ apiVersion then st
  else
    match parseGroupVersion l.groupVersion with
    | none => st
    | some gv => l.apiResources.foldl (processResource apiVersion l.groupVersion gv) st

/-- The full registration pass over the discovery catalog. -/
def buildState (lists : List APIResourceList) (apiVersion : GoStr) : BuildState :=
  lists.foldl (processList apiVersion) ⟨[], []⟩

/-- Go byte order on strings; on UTF-8 text this is code-point
    lexicographic order (UTF-8 preserves code-point order). -/
def strLe (a b : GoStr) : Bool :=
  match a, b with
  | [], _ => true
  | _ :: _, [] => false
  | c :: as, d :: bs =>
    if c.toNat < d.toNat then true
    else if d.toNat < c.toNat then false
    else strLe as bs

/-- The deduplicated, sorted candidate list of the error path (source lines
    544-556: a `map[string]bool` collects the distinct names, which are
    then sorted — the map's iteration order is irrelevant after sorting). -/
def sortDedup (names : List GoStr) : List GoStr := names.dedup.mergeSort strLe

/-- Space-separated concatenation (`fmt`'s `%v` of a string slice is
    bracketed and space-separated). -/
def joinSpace : List GoStr → GoStr
  | [] => []
  | [x] => x
  | x :: xs => x ++ ' ' :: joinSpace xs

/-- The not-found error message of `ResolveResourceType` (source lines
    535-566): names the alias, the hint (if any), and up to 10 sorted
    distinct candidate names, plus the count of omitted ones. -/
def notFoundMsg (resourceType apiVersion : GoStr) (allNames : List GoStr) : GoStr :=
  (str "resource type " ++ goQuote resourceType ++ str " not found"
    ++ (if apiVersion = [] then str " in any available API version"
        else str " in API version " ++ goQuote apiVersion))
  ++ (if 0 < allNames.length then
        (if 10 < (sortDedup allNames).length then
          str ". Available resource types include: "
            ++ '[' :: joinSpace ((sortDedup allNames).take 10) ++ [']']
            ++ str " (and " ++ natDigits (allNames.dedup.length - 10) ++ str " more)"
        else
          str ". Available resource types include: "
            ++ '[' :: joinSpace (sortDedup allNames) ++ [']'])
      else [])

/-- internal/kubernetes client: `ResolveResourceType`.  The discovery fetch
    (`ServerPreferredResources`) is the collaborator input: an error there
    is wrapped as the upstream-unavailable condition; otherwise the alias
    map is built from the catalog and looked up case-insensitively. -/
def ResolveResourceType (lists : Except GoStr (List APIResourceList))
    (resourceType apiVersion : GoStr) : Except GoStr GroupVersionResource :=
  match lists with
  | .error e => .error (str "failed to discover resources: " ++ e)
  | .ok ls =>
    match mapLookup (buildState ls apiVersion).nameToResource (goToLower resourceType) with
    | some info => .ok info.gvr
    | none => .error (notFoundMsg resourceType apiVersion
        (buildState ls apiVersion).allResourceNames)

/-- Modelled from the spec: the first-registered entry, in catalog
    iteration order, one of whose non-empty name forms lower-cases to the
    looked-up key — restricted to lists matching a non-empty hint and
    skipping unparsable group/versions and subresources, exactly like the
    registration pass.  (Spec §4.1: "Otherwise the first-registered entry
    (in catalog iteration order) is kept.") -/
def firstInNames (info : ResourceInfo) (key : GoStr) : List GoStr → Option ResourceInfo
  | [] => none
  | nm :: nms =>
    if nm ≠ [] ∧ goToLower nm = key then some info else firstInNames info key nms

/-- Spec-side scan over one list's resources (see `firstInNames`). -/
def firstInResources (listGV : GoStr) (gv : GroupVersion) (key : GoStr) :
    List APIResource → Option ResourceInfo
  | [] => none
  | r :: rs =>
    match (if goContains r.name ['/'] then none
      else firstInNames ⟨⟨gv.group, gv.version, r.name⟩, listGV⟩ key (resourceNames r)) with
    | some info => some info
    | none => firstInResources listGV gv key rs

/-- Spec-side scan over the whole catalog (see `firstInNames`). -/
def specFirstRegistration (apiVersion key : GoStr) : List APIResourceList → Option ResourceInfo
  | [] => none
  | l :: ls =>
    match (if apiVersion ≠ [] ∧ l.groupVersion ≠ apiVersion then none
      else match parseGroupVersion l.groupVersion with
        | none => none
        | some gv => firstInResources l.groupVersion gv key l.apiResources) with
    | some info => some info
    | none => specFirstRegistration apiVersion key ls

/-- Preference between optional results: the first defined value wins.
    Used to state how a later registration pass extends an earlier one. -/
def optOr {α : Type} : Option α → Option α → Option α
  | some v, _ => some v
  | none, o => o

/-- Invariant of the registration pass: when a version hint is given,
    every registered entry's recorded version equals the hint (the
    list-level filter guarantees it), which keeps the overwrite branch of
    the map insert inert. -/
def goodMap (hint : GoStr) (m : List (GoStr × ResourceInfo)) : Prop :=
  ∀ p ∈ m, hint ≠ [] → p.2.apiVersion = hint

/-- A small concrete discovery catalog used to instantiate theorems. -/
def wCat : List APIResourceList :=
  [⟨str "v1",
    [⟨str "pods", str "pod", str "Pod", [str "po"]⟩,
     ⟨str "pods/log", [], str "Pod", []⟩,
     ⟨str "services", str "service", str "Service", [str "svc"]⟩]⟩,
   ⟨str "apps/v1",
    [⟨str "deployments", str "deployment", str "Deployment", [str "deploy"]⟩]⟩]

end kubernetes

/-
=======================================================================
Theorems
=======================================================================
-/

namespace logfilter

/-- `splitNL` never returns the empty list of lines. -/
theorem splitNL_ne_nil (s : GoStr) : splitNL s ≠ [] := by
  induction s with
  | nil => simp [splitNL]
  | cons c rest ih =>
    simp only [splitNL]
    split
    · simp
    · cases h : splitNL rest <;> simp

/-- No line produced by `splitNL` contains a newline. -/
theorem splitNL_no_newline (s : GoStr) : ∀ l ∈ splitNL s, '\n' ∉ l := by
  induction s with
  | nil => intro l hl; simp [splitNL] at hl; simp [hl]
  | cons c rest ih =>
    intro l hl
    simp only [splitNL] at hl
    by_cases hc : c = '\n'
    · rw [if_pos hc] at hl
      rcases List.mem_cons.1 hl with h | h
      · simp [h]
      · exact ih l h
    · rw [if_neg hc] at hl
      rcases hrest : splitNL rest with _ | ⟨t, ts⟩
      · exact absurd hrest (splitNL_ne_nil rest)
      · rw [hrest] at hl
        rcases List.mem_cons.1 hl with h | h
        · subst h
          intro hmem
          rcases List.mem_cons.1 hmem with h | h
          · exact hc h.symm
          · exact ih t (by rw [hrest]; exact List.mem_cons_self t ts) h
        · exact ih l (by rw [hrest]; exact List.mem_cons_of_mem t h)

/-- A newline-free string splits into itself as a single line. -/
theorem splitNL_of_no_newline (l : GoStr) (h : '\n' ∉ l) : splitNL l = [l] := by
  induction l with
  | nil => rfl
  | cons c t ih =>
    have hc : c ≠ '\n' := fun hc => h (hc ▸ List.mem_cons_self c t)
    have ht : '\n' ∉ t := fun hm => h (List.mem_cons_of_mem c hm)
    simp only [splitNL, if_neg hc, ih ht]

/-- Splitting after appending a newline and more content peels off the
    newline-free first line. -/
theorem splitNL_append_newline (l rest : GoStr) (h : '\n' ∉ l) :
    splitNL (l ++ '\n' :: rest) = l :: splitNL rest := by
  induction l with
  | nil => simp [splitNL]
  | cons c t ih =>
    have hc : c ≠ '\n' := fun hc => h (hc ▸ List.mem_cons_self c t)
    have ht : '\n' ∉ t := fun hm => h (List.mem_cons_of_mem c hm)
    simp only [List.cons_append, splitNL, if_neg hc, List.append_eq, ih ht]

/-- `splitNL` is a left inverse of `joinNL` on non-empty lists of
    newline-free lines. -/
theorem splitNL_joinNL (ls : List GoStr) (hne : ls ≠ [])
    (h : ∀ l ∈ ls, '\n' ∉ l) : splitNL (joinNL ls) = ls := by
  induction ls with
  | nil => exact absurd rfl hne
  | cons l ls ih =>
    cases ls with
    | nil => exact splitNL_of_no_newline l (h l (List.mem_cons_self _ _))
    | cons l2 ls2 =>
      have hjoin : joinNL (l :: l2 :: ls2) = l ++ '\n' :: joinNL (l2 :: ls2) := rfl
      rw [hjoin, splitNL_append_newline l _ (h l (List.mem_cons_self _ _)),
        ih (by simp) (fun x hx => h x (List.mem_cons_of_mem l hx))]

/-- When the exclude pattern list is empty (and hence its compiled form is
    empty), no line is ever excluded. -/
theorem lineMatchesAny_nil {RE : Type} (mtch : RE → GoStr → Bool) (useRegex : Bool)
    (line : GoStr) : lineMatchesAny mtch useRegex [] [] line = false := by
  cases useRegex <;> simp [lineMatchesAny]

/-- On line lists without empty lines, the filtering loop is a plain
    `List.filter` with the survival predicate of the spec. -/
theorem filterLoop_eq_filter {RE : Type} (mtch : RE → GoStr → Bool)
    (o : FilterOptions) (incs excs : List RE)
    (hexc : o.grepExclude = [] → excs = []) (lines : List GoStr)
    (h : ([] : GoStr) ∉ lines) : ∀ acc : List GoStr,
    filterLoop mtch o incs excs lines acc =
      acc ++ lines.filter (fun l => survives mtch o incs excs l) := by
  induction lines with
  | nil => intro acc; simp [filterLoop]
  | cons line rest ih =>
    intro acc
    have hline : line ≠ [] := fun h' => h (h' ▸ List.mem_cons_self line rest)
    have hie : line.isEmpty = false := by
      cases line with
      | nil => exact absurd rfl hline
      | cons a t => rfl
    have hrest : ([] : GoStr) ∉ rest := fun hm => h (List.mem_cons_of_mem line hm)
    have hbexc0 : o.grepExclude = [] →
        lineMatchesAny mtch o.useRegex excs o.grepExclude line = false := by
      intro h0
      rw [hexc h0, h0]
      exact lineMatchesAny_nil mtch o.useRegex line
    have step : filterLoop mtch o incs excs (line :: rest) acc =
        if 0 < o.grepInclude.length
            && !lineMatchesAny mtch o.useRegex incs o.grepInclude line then
          filterLoop mtch o incs excs rest acc
        else if 0 < o.grepExclude.length
            && lineMatchesAny mtch o.useRegex excs o.grepExclude line then
          filterLoop mtch o incs excs rest acc
        else filterLoop mtch o incs excs rest (acc ++ [line]) := by
      conv_lhs => rw [filterLoop]
      rw [if_neg (by simp [hie])]
    rw [step, List.filter_cons]
    by_cases hI : (decide (0 < o.grepInclude.length)
        && !lineMatchesAny mtch o.useRegex incs o.grepInclude line) = true
    · rw [if_pos hI]
      rcases Bool.and_eq_true_iff.1 hI with ⟨hI1, hI2⟩
      have hlen : 0 < o.grepInclude.length := of_decide_eq_true hI1
      have hbI : lineMatchesAny mtch o.useRegex incs o.grepInclude line = false := by
        simpa using hI2
      have hmt : o.grepInclude.isEmpty = false := by
        cases hl : o.grepInclude with
        | nil => rw [hl] at hlen; simp at hlen
        | cons a t => rfl
      have hs : survives mtch o incs excs line = false := by
        simp [survives, hmt, hbI]
      rw [ih hrest acc, hs]
      simp
    · rw [if_neg hI]
      by_cases hE : (decide (0 < o.grepExclude.length)
          && lineMatchesAny mtch o.useRegex excs o.grepExclude line) = true
      · rw [if_pos hE]
        rcases Bool.and_eq_true_iff.1 hE with ⟨hE1, hE2⟩
        have hs : survives mtch o incs excs line = false := by
          simp [survives, hE2]
        rw [ih hrest acc, hs]
        simp
      · rw [if_neg hE]
        have hs : survives mtch o incs excs line = true := by
          simp only [survives, Bool.and_eq_true, Bool.or_eq_true, Bool.not_eq_true']
          constructor
          · by_cases hinc : o.grepInclude = []
            · left; simp [hinc]
            · right
              by_contra hm
              exact hI (by
                simp only [Bool.and_eq_true, decide_eq_true_eq, Bool.not_eq_true']
                exact ⟨List.length_pos.2 hinc, by simpa using hm⟩)
          · by_cases hx : o.grepExclude = []
            · exact hbexc0 hx
            · by_contra hm
              exact hE (by
                simp only [Bool.and_eq_true, decide_eq_true_eq]
                exact ⟨List.length_pos.2 hx, by simpa using hm⟩)
        rw [ih hrest (acc ++ [line]), hs]
        simp

/-- Under the compile hypotheses of `FilterLogs`, filtering a content string
    without empty lines is filtering by the survival predicate. -/
theorem FilterLogs_eq_filter {RE : Type} (compile : GoStr → Except GoStr RE)
    (mtch : RE → GoStr → Bool) (o : FilterOptions) (content : GoStr)
    (incs excs : List RE)
    (hinc : (if o.useRegex then compileList compile (str "include") o.grepInclude
        else .ok []) = .ok incs)
    (hexc : (if o.useRegex then compileList compile (str "exclude") o.grepExclude
        else .ok []) = .ok excs)
    (hne : ([] : GoStr) ∉ splitNL content) :
    FilterLogs compile mtch (some o) content =
      .ok (joinNL ((splitNL content).filter (fun l => survives mtch o incs excs l))) := by
  have hexcnil : o.grepExclude = [] → excs = [] := by
    intro h0
    rcases hr : o.useRegex with _ | _
    · rw [hr] at hexc; simp at hexc; exact hexc
    · rw [hr, h0] at hexc
      simp only [if_true, compileList] at hexc
      exact (Except.ok.inj hexc).symm
  simp only [FilterLogs]
  rw [hinc, hexc]
  show Except.ok (joinNL (filterLoop mtch o incs excs (splitNL content) [])) = _
  rw [filterLoop_eq_filter mtch o incs excs hexcnil (splitNL content) hne []]
  rfl

/-- A line failing the survival predicate contributes nothing to
    `keptLines`. -/
theorem keptLines_cons_false {RE : Type} (mtch : RE → GoStr → Bool)
    (o : FilterOptions) (incs excs : List RE) (line : GoStr) (rest : List GoStr)
    (h : survives mtch o incs excs line = false) :
    keptLines mtch o incs excs (line :: rest) = keptLines mtch o incs excs rest := by
  unfold keptLines
  rw [List.filter_cons, if_neg (by simp [h])]

/-- A line passing the survival predicate heads `keptLines` of its suffix. -/
theorem keptLines_cons_true {RE : Type} (mtch : RE → GoStr → Bool)
    (o : FilterOptions) (incs excs : List RE) (line : GoStr) (rest : List GoStr)
    (h : survives mtch o incs excs line = true) :
    keptLines mtch o incs excs (line :: rest) =
      line :: (rest.filter (fun l => survives mtch o incs excs l)).filter
        (fun l => !l.isEmpty) := by
  unfold keptLines
  rw [List.filter_cons, if_pos (by simp [h])]

/-- Once one line has been kept, the loop keeps exactly the non-empty
    pattern-survivors of the remaining lines: the empty-line guard now
    fires on every empty line. -/
theorem filterLoop_acc_ne {RE : Type} (mtch : RE → GoStr → Bool)
    (o : FilterOptions) (incs excs : List RE)
    (hexc : o.grepExclude = [] → excs = []) (lines : List GoStr) :
    ∀ acc : List GoStr, acc ≠ [] →
    filterLoop mtch o incs excs lines acc =
      acc ++ lines.filter (fun l => !l.isEmpty && survives mtch o incs excs l) := by
  induction lines with
  | nil =>
    intro acc hacc
    simp [filterLoop]
  | cons line rest ih =>
    intro acc hacc
    have haccE : acc.isEmpty = false := by
      cases acc with
      | nil => exact absurd rfl hacc
      | cons a t => rfl
    have hbexc0 : o.grepExclude = [] →
        lineMatchesAny mtch o.useRegex excs o.grepExclude line = false := by
      intro h0
      rw [hexc h0, h0]
      exact lineMatchesAny_nil mtch o.useRegex line
    by_cases hle : line.isEmpty = true
    · have hstep : filterLoop mtch o incs excs (line :: rest) acc =
          filterLoop mtch o incs excs rest acc := by
        conv_lhs => rw [filterLoop]
        rw [if_pos (by simp [hle, haccE])]
      rw [hstep, ih acc hacc, List.filter_cons, if_neg (by simp [hle])]
    · have hie : line.isEmpty = false := by simpa using hle
      have hstep : filterLoop mtch o incs excs (line :: rest) acc =
          if 0 < o.grepInclude.length
              && !lineMatchesAny mtch o.useRegex incs o.grepInclude line then
            filterLoop mtch o incs excs rest acc
          else if 0 < o.grepExclude.length
              && lineMatchesAny mtch o.useRegex excs o.grepExclude line then
            filterLoop mtch o incs excs rest acc
          else filterLoop mtch o incs excs rest (acc ++ [line]) := by
        conv_lhs => rw [filterLoop]
        rw [if_neg (by simp [hie])]
      rw [hstep, List.filter_cons]
      by_cases hI : (decide (0 < o.grepInclude.length)
          && !lineMatchesAny mtch o.useRegex incs o.grepInclude line) = true
      · rw [if_pos hI]
        rcases Bool.and_eq_true_iff.1 hI with ⟨hI1, hI2⟩
        have hmt : o.grepInclude.isEmpty = false := by
          cases hl : o.grepInclude with
          | nil =>
            rw [hl] at hI1
            simp at hI1
          | cons a t => rfl
        have hs : survives mtch o incs excs line = false := by
          simp only [survives, hmt, Bool.false_or]
          simp only [Bool.not_eq_true'] at hI2
          simp [hI2]
        rw [ih acc hacc, if_neg (by simp [hs])]
      · rw [if_neg hI]
        by_cases hE : (decide (0 < o.grepExclude.length)
            && lineMatchesAny mtch o.useRegex excs o.grepExclude line) = true
        · rw [if_pos hE]
          rcases Bool.and_eq_true_iff.1 hE with ⟨hE1, hE2⟩
          have hs : survives mtch o incs excs line = false := by
            simp [survives, hE2]
          rw [ih acc hacc, if_neg (by simp [hs])]
        · rw [if_neg hE]
          have hs : survives mtch o incs excs line = true := by
            simp only [survives, Bool.and_eq_true, Bool.or_eq_true, Bool.not_eq_true']
            constructor
            · by_cases hinc : o.grepInclude = []
              · left; simp [hinc]
              · right
                by_contra hm
                exact hI (by
                  simp only [Bool.and_eq_true, decide_eq_true_eq, Bool.not_eq_true']
                  exact ⟨List.length_pos.2 hinc, by simpa using hm⟩)
            · by_cases hx : o.grepExclude = []
              · exact hbexc0 hx
              · by_contra hm
                exact hE (by
                  simp only [Bool.and_eq_true, decide_eq_true_eq]
                  exact ⟨List.length_pos.2 hx, by simpa using hm⟩)
          rw [ih (acc ++ [line]) (by simp), if_pos (by simp [hs, hie])]
          simp

/-- The loop from the empty accumulator computes `keptLines`: on arbitrary
    input, `FilterLogs` keeps the first pattern-survivor and every later
    non-empty pattern-survivor. -/
theorem filterLoop_keptLines {RE : Type} (mtch : RE → GoStr → Bool)
    (o : FilterOptions) (incs excs : List RE)
    (hexc : o.grepExclude = [] → excs = []) (lines : List GoStr) :
    filterLoop mtch o incs excs lines [] = keptLines mtch o incs excs lines := by
  induction lines with
  | nil => rfl
  | cons line rest ih =>
    have hbexc0 : o.grepExclude = [] →
        lineMatchesAny mtch o.useRegex excs o.grepExclude line = false := by
      intro h0
      rw [hexc h0, h0]
      exact lineMatchesAny_nil mtch o.useRegex line
    have hstep : filterLoop mtch o incs excs (line :: rest) [] =
        if 0 < o.grepInclude.length
            && !lineMatchesAny mtch o.useRegex incs o.grepInclude line then
          filterLoop mtch o incs excs rest []
        else if 0 < o.grepExclude.length
            && lineMatchesAny mtch o.useRegex excs o.grepExclude line then
          filterLoop mtch o incs excs rest []
        else filterLoop mtch o incs excs rest [line] := by
      conv_lhs => rw [filterLoop]
      rw [if_neg (by simp)]
      simp only [List.nil_append]
    rw [hstep]
    by_cases hI : (decide (0 < o.grepInclude.length)
        && !lineMatchesAny mtch o.useRegex incs o.grepInclude line) = true
    · rw [if_pos hI, ih]
      rcases Bool.and_eq_true_iff.1 hI with ⟨hI1, hI2⟩
      have hmt : o.grepInclude.isEmpty = false := by
        cases hl : o.grepInclude with
        | nil =>
          rw [hl] at hI1
          simp at hI1
        | cons a t => rfl
      have hs : survives mtch o incs excs line = false := by
        simp only [survives, hmt, Bool.false_or]
        simp only [Bool.not_eq_true'] at hI2
        simp [hI2]
      exact (keptLines_cons_false mtch o incs excs line rest hs).symm
    · rw [if_neg hI]
      by_cases hE : (decide (0 < o.grepExclude.length)
          && lineMatchesAny mtch o.useRegex excs o.grepExclude line) = true
      · rw [if_pos hE, ih]
        rcases Bool.and_eq_true_iff.1 hE with ⟨hE1, hE2⟩
        have hs : survives mtch o incs excs line = false := by
          simp [survives, hE2]
        exact (keptLines_cons_false mtch o incs excs line rest hs).symm
      · rw [if_neg hE]
        have hs : survives mtch o incs excs line = true := by
          simp only [survives, Bool.and_eq_true, Bool.or_eq_true, Bool.not_eq_true']
          constructor
          · by_cases hinc : o.grepInclude = []
            · left; simp [hinc]
            · right
              by_contra hm
              exact hI (by
                simp only [Bool.and_eq_true, decide_eq_true_eq, Bool.not_eq_true']
                exact ⟨List.length_pos.2 hinc, by simpa using hm⟩)
          · by_cases hx : o.grepExclude = []
            · exact hbexc0 hx
            · by_contra hm
              exact hE (by
                simp only [Bool.and_eq_true, decide_eq_true_eq]
                exact ⟨List.length_pos.2 hx, by simpa using hm⟩)
        rw [filterLoop_acc_ne mtch o incs excs hexc rest [line] (by simp),
          keptLines_cons_true mtch o incs excs line rest hs, List.filter_filter]
        rfl

/-- On arbitrary content, `FilterLogs` returns the joined `keptLines` of
    the split content. -/
theorem FilterLogs_keptLines {RE : Type} (compile : GoStr → Except GoStr RE)
    (mtch : RE → GoStr → Bool) (o : FilterOptions) (content : GoStr)
    (incs excs : List RE)
    (hinc : (if o.useRegex then compileList compile (str "include") o.grepInclude
        else .ok []) = .ok incs)
    (hexc : (if o.useRegex then compileList compile (str "exclude") o.grepExclude
        else .ok []) = .ok excs) :
    FilterLogs compile mtch (some o) content =
      .ok (joinNL (keptLines mtch o incs excs (splitNL content))) := by
  have hexcnil : o.grepExclude = [] → excs = [] := by
    intro h0
    rcases hr : o.useRegex with _ | _
    · rw [hr] at hexc; simp at hexc; exact hexc
    · rw [hr, h0] at hexc
      simp only [if_true, compileList] at hexc
      exact (Except.ok.inj hexc).symm
  simp only [FilterLogs]
  rw [hinc, hexc]
  show Except.ok (joinNL (filterLoop mtch o incs excs (splitNL content) [])) = _
  rw [filterLoop_keptLines mtch o incs excs hexcnil (splitNL content)]

/-- Every kept line is a line of the input. -/
theorem keptLines_subset {RE : Type} (mtch : RE → GoStr → Bool)
    (o : FilterOptions) (incs excs : List RE) (lines : List GoStr) :
    keptLines mtch o incs excs lines ⊆ lines := by
  unfold keptLines
  cases hs : lines.filter (fun l => survives mtch o incs excs l) with
  | nil => simp
  | cons x r =>
    intro y hy
    simp only [] at hy
    have hsub : x :: r ⊆ lines := by
      rw [← hs]
      exact (List.filter_sublist lines).subset
    rcases List.mem_cons.1 hy with h | h
    · exact hsub (h ▸ List.mem_cons_self x r)
    · exact hsub (List.mem_cons_of_mem x ((List.filter_sublist r).subset h))

/-- A non-empty line of the input is kept iff it passes the survival
    predicate — on arbitrary content. -/
theorem mem_keptLines {RE : Type} (mtch : RE → GoStr → Bool) (o : FilterOptions)
    (incs excs : List RE) (lines : List GoStr) (line : GoStr)
    (hl : line ∈ lines) (hlne : line ≠ []) :
    line ∈ keptLines mtch o incs excs lines ↔
      survives mtch o incs excs line = true := by
  unfold keptLines
  cases hs : lines.filter (fun l => survives mtch o incs excs l) with
  | nil =>
    simp only []
    constructor
    · intro h
      exact absurd h (List.not_mem_nil line)
    · intro h
      have hmem : line ∈ lines.filter (fun l => survives mtch o incs excs l) :=
        List.mem_filter.2 ⟨hl, h⟩
      rw [hs] at hmem
      exact absurd hmem (List.not_mem_nil line)
  | cons x r =>
    simp only []
    constructor
    · intro h
      rcases List.mem_cons.1 h with h1 | h1
      · have hmem : line ∈ lines.filter (fun l => survives mtch o incs excs l) := by
          rw [hs, h1]
          exact List.mem_cons_self x r
        exact (List.mem_filter.1 hmem).2
      · have h2 := (List.filter_sublist r).subset h1
        have hmem : line ∈ lines.filter (fun l => survives mtch o incs excs l) := by
          rw [hs]
          exact List.mem_cons_of_mem x h2
        exact (List.mem_filter.1 hmem).2
    · intro h
      have hmem : line ∈ lines.filter (fun l => survives mtch o incs excs l) :=
        List.mem_filter.2 ⟨hl, h⟩
      rw [hs] at hmem
      rcases List.mem_cons.1 hmem with h1 | h1
      · rw [h1]
        exact List.mem_cons_self x _
      · refine List.mem_cons_of_mem x (List.mem_filter.2 ⟨h1, ?_⟩)
        cases line with
        | nil => exact absurd rfl hlne
        | cons a t => rfl

/-- An empty line survives only as the very first kept line: kept empty
    lines never follow a kept line. -/
theorem keptLines_empty_head {RE : Type} (mtch : RE → GoStr → Bool)
    (o : FilterOptions) (incs excs : List RE) (lines : List GoStr)
    (h : ([] : GoStr) ∈ keptLines mtch o incs excs lines) :
    (keptLines mtch o incs excs lines).head? = some [] := by
  unfold keptLines at h ⊢
  cases hs : lines.filter (fun l => survives mtch o incs excs l) with
  | nil =>
    rw [hs] at h
    simp at h
  | cons x r =>
    rw [hs] at h
    simp only []
    rcases List.mem_cons.1 h with h1 | h1
    · rw [← h1]
      rfl
    · have h2 := (List.mem_filter.1 h1).2
      simp at h2

end logfilter

open logfilter in
/-- C2 (code_bug evaluation): on content `"a\n\nb"` with empty literal-mode
    options, the source's `FilterLogs` returns `"a\nb"`, dropping the empty
    line that sits between two non-empty lines, although its own
    documentation says only empty lines at the end are removed. -/
theorem filterlogs_drops_interior_blank_line :
    FilterLogs unitCompile unitMatch (some emptyOpts) (str "a\n\nb") = .ok (str "a\nb")
    ∧ FilterLogs unitCompile unitMatch (some emptyOpts) (str "a\n\nb")
        ≠ .ok (str "a\n\nb") := by
  refine ⟨rfl, fun h => ?_⟩
  rw [show FilterLogs unitCompile unitMatch (some emptyOpts) (str "a\n\nb")
      = .ok (str "a\nb") from rfl] at h
  exact absurd (Except.ok.inj h) (by decide)

open logfilter in
/-- C7 (counterexample): the survival iff of the claim fails for empty lines:
    in content `"a\n\nb"` the interior empty line satisfies the
    include/exclude survival predicate (no patterns at all) yet is absent
    from the filtered output. -/
theorem interior_blank_breaks_survival_iff :
    survives unitMatch emptyOpts ([] : List Unit) [] [] = true
    ∧ FilterLogs unitCompile unitMatch (some emptyOpts) (str "a\n\nb") = .ok (str "a\nb")
    ∧ ([] : GoStr) ∈ splitNL (str "a\n\nb")
    ∧ ([] : GoStr) ∉ splitNL (str "a\nb") :=
  ⟨rfl, rfl, by decide, by decide⟩

namespace logfilter

/-- C7 (amended): for every validated filter spec and EVERY content string,
    `FilterLogs` returns the joined `keptLines` — the first
    pattern-survivor, then every later non-empty pattern-survivor; every
    non-empty line of the input is in the output iff the include list is
    empty or the line matches at least one include pattern, and the line
    matches no exclude pattern, exclusion applied after inclusion; an empty
    line can appear in the output only as the very first kept line (empty
    lines are dropped whenever an earlier line was kept, which is where
    the claim's original iff fails); in literal mode "matches" is
    case-sensitive substring containment, in regex mode it is matching of
    the correspondingly compiled pattern. -/
theorem filterlogs_survival_iff {RE : Type} (compile : GoStr → Except GoStr RE)
    (mtch : RE → GoStr → Bool) (o : FilterOptions) (content : GoStr)
    (incs excs : List RE)
    (hinc : (if o.useRegex then compileList compile (str "include") o.grepInclude
        else .ok []) = .ok incs)
    (hexc : (if o.useRegex then compileList compile (str "exclude") o.grepExclude
        else .ok []) = .ok excs) :
    FilterLogs compile mtch (some o) content =
      .ok (joinNL (keptLines mtch o incs excs (splitNL content)))
    ∧ (∀ line ∈ splitNL content, line ≠ [] →
        (line ∈ splitNL (joinNL (keptLines mtch o incs excs (splitNL content)))
          ↔ survives mtch o incs excs line = true))
    ∧ (([] : GoStr) ∈ keptLines mtch o incs excs (splitNL content) →
        (keptLines mtch o incs excs (splitNL content)).head? = some [])
    ∧ (o.useRegex = false → ∀ line,
        survives mtch o incs excs line =
          ((o.grepInclude.isEmpty || o.grepInclude.any (fun p => goContains line p))
            && !(o.grepExclude.any (fun p => goContains line p)))) := by
  refine ⟨FilterLogs_keptLines compile mtch o content incs excs hinc hexc, ?_,
    keptLines_empty_head mtch o incs excs (splitNL content), ?_⟩
  · intro line hline hlne
    by_cases hk : keptLines mtch o incs excs (splitNL content) = []
    · rw [hk]
      constructor
      · intro hmem
        simp only [joinNL, splitNL] at hmem
        exact absurd (List.mem_singleton.1 hmem) hlne
      · intro hs
        have hmem := (mem_keptLines mtch o incs excs (splitNL content) line hline hlne).2 hs
        rw [hk] at hmem
        exact absurd hmem (List.not_mem_nil line)
    · rw [splitNL_joinNL _ hk (fun l hl =>
        splitNL_no_newline content l (keptLines_subset mtch o incs excs (splitNL content) hl))]
      exact mem_keptLines mtch o incs excs (splitNL content) line hline hlne
  · intro hr line
    simp [survives, lineMatchesAny, hr]

end logfilter

open logfilter in
/-- Closed instance of `filterlogs_survival_iff`: literal-mode include
    filtering by pattern `"b"` of a content that contains an interior
    blank line. -/
theorem filterlogs_survival_iff_witness :
    FilterLogs unitCompile unitMatch (some ⟨[str "b"], [], false⟩) (str "a\nb\n\nc") =
      .ok (joinNL (keptLines unitMatch ⟨[str "b"], [], false⟩ ([] : List Unit) []
        (splitNL (str "a\nb\n\nc")))) :=
  (filterlogs_survival_iff unitCompile unitMatch ⟨[str "b"], [], false⟩
    (str "a\nb\n\nc") [] [] rfl rfl).1

open logfilter in
/-- C10: if `ValidateFilterOptions` succeeds then `FilterLogs` (and hence
    `CountMatchingLines`) succeeds on every content string: pattern
    compilation is the only error source of filtering. -/
theorem validate_ok_filter_ok {RE : Type} (compile : GoStr → Except GoStr RE)
    (mtch : RE → GoStr → Bool) (opts : Option FilterOptions) (content : GoStr)
    (h : ValidateFilterOptions compile opts = .ok ()) :
    (∃ out, FilterLogs compile mtch opts content = .ok out)
    ∧ ∃ n, CountMatchingLines compile mtch opts content = .ok n := by
  suffices hf : ∃ out, FilterLogs compile mtch opts content = .ok out by
    rcases hf with ⟨out, hout⟩
    refine ⟨⟨out, hout⟩, ?_⟩
    unfold CountMatchingLines
    rw [hout]
    by_cases he : out.isEmpty = true
    · exact ⟨0, by simp [he]⟩
    · exact ⟨(splitNL out).length, by simp [he]⟩
  cases opts with
  | none => exact ⟨content, rfl⟩
  | some o =>
    simp only [ValidateFilterOptions] at h
    rcases hr : o.useRegex with _ | _
    · rw [hr] at h
      simp only [Bool.false_eq_true, if_false] at h
      refine ⟨joinNL (filterLoop mtch o [] [] (splitNL content) []), ?_⟩
      simp [FilterLogs, hr]
    · rw [hr] at h
      simp only [if_true] at h
      rcases hic : compileList compile (str "include") o.grepInclude with e | li
      · rw [hic] at h; simp at h
      · rw [hic] at h
        rcases hec : compileList compile (str "exclude") o.grepExclude with e | le
        · rw [hec] at h; simp at h
        · refine ⟨joinNL (filterLoop mtch o li le (splitNL content) []), ?_⟩
          simp [FilterLogs, hr, hic, hec]

open logfilter in
/-- Closed instance of `validate_ok_filter_ok`: a regex spec whose patterns
    all compile filters without error. -/
theorem validate_ok_filter_ok_witness :
    (∃ out, FilterLogs unitCompile unitMatch
      (some ⟨[str "a"], [str "b"], true⟩) (str "x") = .ok out)
    ∧ ∃ n, CountMatchingLines unitCompile unitMatch
      (some ⟨[str "a"], [str "b"], true⟩) (str "x") = .ok n :=
  validate_ok_filter_ok unitCompile unitMatch
    (some ⟨[str "a"], [str "b"], true⟩) (str "x") rfl

namespace logfilter

/-- C8: `ParseSinceTime` maps the empty string to two absent outputs with no
    error; it tries duration parsing (with `Nd` = `N`·24 hours, so `"1d"`
    gives 86400 relative seconds) before any absolute format; and when
    nothing parses it reports the original raw string verbatim.  The Go
    standard library parsers are abstract parameters; the single fact used
    about them is that `time.ParseDuration "1h"` is 3 600 000 000 000 ns. -/
theorem parse_since_time_spec {TT : Type} (gpd : GoStr → Option Int)
    (gtp : GoStr → GoStr → Option TT)
    (h1h : gpd (str "1h") = some 3600000000000) :
    @ParseSinceTime TT gpd gtp (str "") = .ok (none, none)
    ∧ @ParseSinceTime TT gpd gtp (str "1d") = .ok (none, some 86400)
    ∧ (∀ s e, @ParseSinceTime TT gpd gtp s = .error e →
        e = str "invalid since time format: " ++ s)
    ∧ (∀ s d, s.isEmpty = false → parseDuration gpd s = some d →
        @ParseSinceTime TT gpd gtp s = .ok (none, some (Int.tdiv d 1000000000))) := by
  have h4 : ∀ s d, s.isEmpty = false → parseDuration gpd s = some d →
      @ParseSinceTime TT gpd gtp s = .ok (none, some (Int.tdiv d 1000000000)) := by
    intro s d hse hpd
    unfold ParseSinceTime
    rw [if_neg (by simp [hse]), hpd]
  refine ⟨rfl, ?_, ?_, h4⟩
  · have h' : gpd ((str "1d").dropLast ++ ['h']) = some 3600000000000 := h1h
    have hpd : parseDuration gpd (str "1d") = some (3600000000000 * 24) := by
      unfold parseDuration
      rw [if_pos (show endsWithD (str "1d") = true from rfl), h']
    have htd : Int.tdiv (3600000000000 * 24) 1000000000 = 86400 := by decide
    rw [h4 (str "1d") (3600000000000 * 24) rfl hpd, htd]
  · intro s e h
    unfold ParseSinceTime at h
    by_cases hse : s.isEmpty = true
    · rw [if_pos hse] at h; simp at h
    · rw [if_neg hse] at h
      rcases hpd : parseDuration gpd s with _ | d
      · rw [hpd] at h
        rcases hff : firstFormat gtp s timeFormats with _ | t
        · rw [hff] at h
          exact (Except.error.inj h).symm
        · rw [hff] at h; simp at h
      · rw [hpd] at h; simp at h

end logfilter

open logfilter in
/-- Closed instance of `parse_since_time_spec` at the witness standard
    library instantiation. -/
theorem parse_since_time_spec_witness :
    @ParseSinceTime Unit oneHourPD noTimeParse (str "1d") = .ok (none, some 86400) :=
  (parse_since_time_spec oneHourPD noTimeParse (by decide)).2.1

/-! ### Character and UTF-8 facts -/

/-- The code point of a `Char` avoids the surrogate range and is below
    0x110000. -/
theorem char_ranges (c : Char) :
    c.toNat < 0xD800 ∨ (0xDFFF < c.toNat ∧ c.toNat < 0x110000) := by
  rcases c.valid with h | ⟨h1, h2⟩
  · exact Or.inl h
  · exact Or.inr ⟨h1, h2⟩

/-- `Char.ofNat` at a valid code point has that code point. -/
theorem toNat_ofNat_valid (n : Nat) (h : n.isValidChar) : (Char.ofNat n).toNat = n := by
  rw [Char.ofNat, dif_pos h]
  rfl

/-- Bounds of `Nat.isValidChar` in plain arithmetic form. -/
theorem isValidChar_of_ranges (n : Nat)
    (h : n < 0xD800 ∨ (0xDFFF < n ∧ n < 0x110000)) : n.isValidChar := by
  rcases h with h | ⟨h1, h2⟩
  · exact Or.inl h
  · exact Or.inr ⟨h1, h2⟩

/-- All UTF-8 bytes are below 256. -/
theorem utf8Char_lt256 (c : Char) : ∀ b ∈ utf8Char c, b < 256 := by
  intro b hb
  have hc := char_ranges c
  unfold utf8Char at hb
  by_cases h1 : c.toNat < 0x80
  · rw [if_pos h1] at hb
    simp only [List.mem_singleton] at hb
    omega
  · rw [if_neg h1] at hb
    by_cases h2 : c.toNat < 0x800
    · rw [if_pos h2] at hb
      simp only [List.mem_cons, List.mem_singleton, List.not_mem_nil, or_false] at hb
      rcases hb with h | h <;> omega
    · rw [if_neg h2] at hb
      by_cases h3 : c.toNat < 0x10000
      · rw [if_pos h3] at hb
        simp only [List.mem_cons, List.not_mem_nil, or_false] at hb
        rcases hb with h | h | h <;> omega
      · rw [if_neg h3] at hb
        simp only [List.mem_cons, List.not_mem_nil, or_false] at hb
        rcases hb with h | h | h | h <;> omega

/-- All bytes of an encoded string are below 256. -/
theorem utf8Str_lt256 (s : GoStr) : ∀ b ∈ utf8Str s, b < 256 := by
  intro b hb
  simp only [utf8Str, List.mem_flatMap] at hb
  rcases hb with ⟨c, _, hb⟩
  exact utf8Char_lt256 c b hb

/-- The encoding of a character is never empty. -/
theorem utf8Char_ne_nil (c : Char) : utf8Char c ≠ [] := by
  unfold utf8Char
  by_cases h1 : c.toNat < 0x80
  · rw [if_pos h1]; simp
  · rw [if_neg h1]
    by_cases h2 : c.toNat < 0x800
    · rw [if_pos h2]; simp
    · rw [if_neg h2]
      by_cases h3 : c.toNat < 0x10000
      · rw [if_pos h3]; simp
      · rw [if_neg h3]; simp

/-- One decode step after encoding one character peels exactly it off. -/
theorem utf8DecodeStep_char (c : Char) (bs : GoBytes) :
    utf8DecodeStep (utf8Char c ++ bs) = some (c, bs) := by
  have hc := char_ranges c
  by_cases h1 : c.toNat < 0x80
  · have henc : utf8Char c = [c.toNat] := by
      unfold utf8Char; rw [if_pos h1]
    rw [henc, List.cons_append, List.nil_append]
    conv_lhs => unfold utf8DecodeStep
    simp only []
    rw [if_pos h1, Char.ofNat_toNat]
  · by_cases h2 : c.toNat < 0x800
    · have henc : utf8Char c = [0xC0 + c.toNat / 0x40, 0x80 + c.toNat % 0x40] := by
        unfold utf8Char; rw [if_neg h1, if_pos h2]
      rw [henc, List.cons_append, List.cons_append, List.nil_append]
      conv_lhs => unfold utf8DecodeStep
      simp only []
      rw [if_neg (by omega), if_pos (by omega : 0xC2 ≤ 0xC0 + c.toNat / 0x40
        ∧ 0xC0 + c.toNat / 0x40 < 0xE0)]
      rw [if_pos (by omega : 0x80 ≤ 0x80 + c.toNat % 0x40 ∧ 0x80 + c.toNat % 0x40 < 0xC0),
        show (0xC0 + c.toNat / 0x40 - 0xC0) * 0x40 + (0x80 + c.toNat % 0x40 - 0x80)
          = c.toNat from by omega, Char.ofNat_toNat]
    · by_cases h3 : c.toNat < 0x10000
      · have henc : utf8Char c = [0xE0 + c.toNat / 0x1000,
            0x80 + (c.toNat / 0x40) % 0x40, 0x80 + c.toNat % 0x40] := by
          unfold utf8Char; rw [if_neg h1, if_neg h2, if_pos h3]
        rw [henc, List.cons_append, List.cons_append, List.cons_append, List.nil_append]
        conv_lhs => unfold utf8DecodeStep
        simp only []
        rw [if_neg (by omega), if_neg (by omega), if_pos (by omega :
          0xE0 ≤ 0xE0 + c.toNat / 0x1000 ∧ 0xE0 + c.toNat / 0x1000 < 0xF0)]
        rw [if_pos (by omega : (0x80 ≤ 0x80 + (c.toNat / 0x40) % 0x40
            ∧ 0x80 + (c.toNat / 0x40) % 0x40 < 0xC0)
          ∧ (0x80 ≤ 0x80 + c.toNat % 0x40 ∧ 0x80 + c.toNat % 0x40 < 0xC0)),
          show (0xE0 + c.toNat / 0x1000 - 0xE0) * 0x1000
            + (0x80 + (c.toNat / 0x40) % 0x40 - 0x80) * 0x40
            + (0x80 + c.toNat % 0x40 - 0x80) = c.toNat from by omega,
          if_pos (by omega : 0x800 ≤ c.toNat
            ∧ (c.toNat < 0xD800 ∨ 0xDFFF < c.toNat)), Char.ofNat_toNat]
      · have h4 : c.toNat < 0x110000 := by omega
        have henc : utf8Char c = [0xF0 + c.toNat / 0x40000,
            0x80 + (c.toNat / 0x1000) % 0x40, 0x80 + (c.toNat / 0x40) % 0x40,
            0x80 + c.toNat % 0x40] := by
          unfold utf8Char; rw [if_neg h1, if_neg h2, if_neg h3]
        rw [henc, List.cons_append, List.cons_append, List.cons_append,
          List.cons_append, List.nil_append]
        conv_lhs => unfold utf8DecodeStep
        simp only []
        rw [if_neg (by omega), if_neg (by omega), if_neg (by omega),
          if_pos (by omega : 0xF0 ≤ 0xF0 + c.toNat / 0x40000
            ∧ 0xF0 + c.toNat / 0x40000 < 0xF5)]
        rw [if_pos (by omega : (0x80 ≤ 0x80 + (c.toNat / 0x1000) % 0x40
            ∧ 0x80 + (c.toNat / 0x1000) % 0x40 < 0xC0)
          ∧ (0x80 ≤ 0x80 + (c.toNat / 0x40) % 0x40
            ∧ 0x80 + (c.toNat / 0x40) % 0x40 < 0xC0)
          ∧ (0x80 ≤ 0x80 + c.toNat % 0x40 ∧ 0x80 + c.toNat % 0x40 < 0xC0)),
          show (0xF0 + c.toNat / 0x40000 - 0xF0) * 0x40000
            + (0x80 + (c.toNat / 0x1000) % 0x40 - 0x80) * 0x1000
            + (0x80 + (c.toNat / 0x40) % 0x40 - 0x80) * 0x40
            + (0x80 + c.toNat % 0x40 - 0x80) = c.toNat from by omega,
          if_pos (by omega : 0x10000 ≤ c.toNat ∧ c.toNat < 0x110000), Char.ofNat_toNat]

/-- With enough fuel, the decode loop inverts the encoding of a string. -/
theorem utf8DecodeF_str (s : GoStr) : ∀ fuel, s.length ≤ fuel →
    utf8DecodeF fuel (utf8Str s) = some s := by
  induction s with
  | nil => intro fuel _; cases fuel <;> rfl
  | cons c cs ih =>
    intro fuel hf
    cases fuel with
    | zero => simp at hf
    | succ f =>
      have hsplit : utf8Str (c :: cs) = utf8Char c ++ utf8Str cs := by simp [utf8Str]
      have hne : (utf8Char c ++ utf8Str cs).isEmpty = false := by
        cases h : utf8Char c with
        | nil => exact absurd h (utf8Char_ne_nil c)
        | cons a t => rfl
      rw [hsplit]
      show (if (utf8Char c ++ utf8Str cs).isEmpty = true then some []
        else match utf8DecodeStep (utf8Char c ++ utf8Str cs) with
          | some (c2, rest) => (utf8DecodeF f rest).map (fun cs2 => c2 :: cs2)
          | none => none) = some (c :: cs)
      rw [hne]
      simp only [Bool.false_eq_true, if_false]
      rw [utf8DecodeStep_char]
      simp only []
      rw [ih f (by simpa using hf)]
      rfl

/-- UTF-8 decoding is a left inverse of encoding. -/
theorem utf8_roundtrip (s : GoStr) : utf8Decode (utf8Str s) = some s := by
  unfold utf8Decode
  apply utf8DecodeF_str
  have : ∀ t : GoStr, t.length ≤ (utf8Str t).length := by
    intro t
    induction t with
    | nil => simp [utf8Str]
    | cons c cs ih =>
      have hsplit : utf8Str (c :: cs) = utf8Char c ++ utf8Str cs := by simp [utf8Str]
      rw [hsplit, List.length_append, List.length_cons]
      have hpos : 0 < (utf8Char c).length := by
        cases h : utf8Char c with
        | nil => exact absurd h (utf8Char_ne_nil c)
        | cons a t2 => simp
      omega
  exact this s

/-- The base64 value of a base64 digit, over `Fin 64`. -/
theorem b64Val_b64Digit_fin : ∀ v : Fin 64, b64Val (b64Digit v.val) = some v.val := by decide

/-- The base64 value of a base64 digit. -/
theorem b64Val_b64Digit (v : Nat) (h : v < 64) : b64Val (b64Digit v) = some v :=
  b64Val_b64Digit_fin ⟨v, h⟩

/-- Base64 digits are never the pad character, over `Fin 64`. -/
theorem b64Digit_ne_pad_fin : ∀ v : Fin 64, b64Digit v.val ≠ '=' := by decide

/-- Base64 digits are never the pad character. -/
theorem b64Digit_ne_pad (v : Nat) (h : v < 64) : b64Digit v ≠ '=' :=
  b64Digit_ne_pad_fin ⟨v, h⟩

/-- Base64 digits are in the URL-safe alphabet, over `Fin 64`. -/
theorem urlSafe_b64Digit_fin : ∀ v : Fin 64, urlSafeB64Char (b64Digit v.val) = true := by decide

/-- Base64 digits are in the URL-safe alphabet. -/
theorem urlSafe_b64Digit (v : Nat) (h : v < 64) : urlSafeB64Char (b64Digit v) = true :=
  urlSafe_b64Digit_fin ⟨v, h⟩

/-- Go's padded URL-safe base64 decoding inverts encoding on byte slices. -/
theorem b64_roundtrip : ∀ bs : GoBytes, (∀ b ∈ bs, b < 256) →
    b64Decode (b64Encode bs) = some bs
  | [], _ => rfl
  | [b0], h => by
    have hb0 : b0 < 256 := h b0 (by simp)
    show b64Decode [b64Digit (b0 / 4), b64Digit (b0 % 4 * 16), '=', '='] = some [b0]
    conv_lhs => unfold b64Decode
    simp only []
    rw [if_pos (by simp), b64Val_b64Digit _ (by omega),
      b64Val_b64Digit _ (by omega)]
    simp only []
    rw [show b0 / 4 * 4 + b0 % 4 * 16 / 16 = b0 from by omega]
  | [b0, b1], h => by
    have hb0 : b0 < 256 := h b0 (by simp)
    have hb1 : b1 < 256 := h b1 (by simp)
    show b64Decode [b64Digit (b0 / 4), b64Digit (b0 % 4 * 16 + b1 / 16),
      b64Digit (b1 % 16 * 4), '='] = some [b0, b1]
    conv_lhs => unfold b64Decode
    simp only []
    rw [if_neg (fun hcon => b64Digit_ne_pad (b1 % 16 * 4) (by omega) hcon.2.1),
      if_pos (by simp), b64Val_b64Digit _ (by omega),
      b64Val_b64Digit _ (by omega), b64Val_b64Digit _ (by omega)]
    simp only []
    rw [show b0 / 4 * 4 + (b0 % 4 * 16 + b1 / 16) / 16 = b0 from by omega,
      show (b0 % 4 * 16 + b1 / 16) % 16 * 16 + b1 % 16 * 4 / 4 = b1 from by omega]
  | b0 :: b1 :: b2 :: rest, h => by
    have hb0 : b0 < 256 := h b0 (by simp)
    have hb1 : b1 < 256 := h b1 (by simp)
    have hb2 : b2 < 256 := h b2 (by simp)
    have ih := b64_roundtrip rest (fun b hb => h b (by simp [hb]))
    show b64Decode (b64Digit (b0 / 4) :: b64Digit (b0 % 4 * 16 + b1 / 16) ::
      b64Digit (b1 % 16 * 4 + b2 / 64) :: b64Digit (b2 % 64) :: b64Encode rest)
      = some (b0 :: b1 :: b2 :: rest)
    conv_lhs => unfold b64Decode
    rw [if_neg (fun hcon => b64Digit_ne_pad (b1 % 16 * 4 + b2 / 64) (by omega) hcon.2.1),
      if_neg (fun hcon => b64Digit_ne_pad (b2 % 64) (by omega) hcon.2),
      b64Val_b64Digit _ (by omega), b64Val_b64Digit _ (by omega),
      b64Val_b64Digit _ (by omega), b64Val_b64Digit _ (by omega)]
    rw [ih]
    simp only [Option.map_some]
    rw [show b0 / 4 * 4 + (b0 % 4 * 16 + b1 / 16) / 16 = b0 from by omega,
      show (b0 % 4 * 16 + b1 / 16) % 16 * 16 + (b1 % 16 * 4 + b2 / 64) / 4 = b1 from by omega,
      show (b1 % 16 * 4 + b2 / 64) % 4 * 64 + b2 % 64 = b2 from by omega]
    rfl

/-- Every character the encoder emits is in the URL-safe alphabet or is the
    `'='` pad. -/
theorem b64Encode_chars : ∀ bs : GoBytes, (∀ b ∈ bs, b < 256) →
    ∀ c ∈ b64Encode bs, urlSafeB64Char c = true ∨ c = '='
  | [], _ => by intro c hc; simp [b64Encode] at hc
  | [b0], h => by
    have hb0 : b0 < 256 := h b0 (by simp)
    intro c hc
    have : c ∈ [b64Digit (b0 / 4), b64Digit (b0 % 4 * 16), '=', '='] := hc
    simp only [List.mem_cons, List.not_mem_nil, or_false] at this
    rcases this with h1 | h1 | h1 | h1
    · exact Or.inl (h1 ▸ urlSafe_b64Digit _ (by omega))
    · exact Or.inl (h1 ▸ urlSafe_b64Digit _ (by omega))
    · exact Or.inr h1
    · exact Or.inr h1
  | [b0, b1], h => by
    have hb0 : b0 < 256 := h b0 (by simp)
    have hb1 : b1 < 256 := h b1 (by simp)
    intro c hc
    have : c ∈ [b64Digit (b0 / 4), b64Digit (b0 % 4 * 16 + b1 / 16),
        b64Digit (b1 % 16 * 4), '='] := hc
    simp only [List.mem_cons, List.not_mem_nil, or_false] at this
    rcases this with h1 | h1 | h1 | h1
    · exact Or.inl (h1 ▸ urlSafe_b64Digit _ (by omega))
    · exact Or.inl (h1 ▸ urlSafe_b64Digit _ (by omega))
    · exact Or.inl (h1 ▸ urlSafe_b64Digit _ (by omega))
    · exact Or.inr h1
  | b0 :: b1 :: b2 :: rest, h => by
    have hb0 : b0 < 256 := h b0 (by simp)
    have hb1 : b1 < 256 := h b1 (by simp)
    have hb2 : b2 < 256 := h b2 (by simp)
    intro c hc
    have : c ∈ b64Digit (b0 / 4) :: b64Digit (b0 % 4 * 16 + b1 / 16) ::
        b64Digit (b1 % 16 * 4 + b2 / 64) :: b64Digit (b2 % 64) :: b64Encode rest := hc
    simp only [List.mem_cons] at this
    rcases this with h1 | h1 | h1 | h1 | h1
    · exact Or.inl (h1 ▸ urlSafe_b64Digit _ (by omega))
    · exact Or.inl (h1 ▸ urlSafe_b64Digit _ (by omega))
    · exact Or.inl (h1 ▸ urlSafe_b64Digit _ (by omega))
    · exact Or.inl (h1 ▸ urlSafe_b64Digit _ (by omega))
    · exact b64Encode_chars rest (fun b hb => h b (by simp [hb])) c h1

/-- Encoding a non-empty byte slice yields a non-empty token. -/
theorem b64Encode_ne_nil : ∀ bs : GoBytes, bs ≠ [] → b64Encode bs ≠ []
  | [], h => absurd rfl h
  | [_], _ => by simp [b64Encode]
  | [_, _], _ => by simp [b64Encode]
  | _ :: _ :: _ :: _, _ => by simp [b64Encode]

/-! ### Decimal digit rendering and parsing -/

namespace handlers

/-- Digit characters parse back to their value, over `Fin 10`. -/
theorem digitVal_dig_fin : ∀ d : Fin 10, digitVal (Char.ofNat (48 + d.val)) = some d.val := by
  decide

/-- Digit characters parse back to their value. -/
theorem digitVal_dig (d : Nat) (h : d < 10) : digitVal (Char.ofNat (48 + d)) = some d :=
  digitVal_dig_fin ⟨d, h⟩

/-- `natDigitsF` does not depend on the fuel once it exceeds the number. -/
theorem natDigitsF_fuel_eq (n : Nat) : ∀ fuel fuel', n < fuel → n < fuel' →
    natDigitsF fuel n = natDigitsF fuel' n := by
  induction n using Nat.strong_induction_on with
  | _ n ih =>
    intro fuel fuel' hf hf'
    cases fuel with
    | zero => omega
    | succ f =>
      cases fuel' with
      | zero => omega
      | succ f' =>
        by_cases h10 : n < 10
        · simp only [natDigitsF]
          rw [if_pos h10, if_pos h10]
        · simp only [natDigitsF]
          rw [if_neg h10, if_neg h10, ih (n / 10) (by omega) f f' (by omega) (by omega)]

/-- Single-digit rendering. -/
theorem natDigits_lt10 (n : Nat) (h : n < 10) : natDigits n = [Char.ofNat (48 + n)] := by
  unfold natDigits
  simp only [natDigitsF]
  rw [if_pos h]

/-- Multi-digit rendering unfolds once. -/
theorem natDigits_ge10 (n : Nat) (h : ¬ n < 10) :
    natDigits n = natDigits (n / 10) ++ [Char.ofNat (48 + n % 10)] := by
  unfold natDigits
  simp only [natDigitsF]
  rw [if_neg h, natDigitsF_fuel_eq (n / 10) n (n / 10 + 1) (by omega) (by omega)]
  simp only [natDigitsF]

/-- Digit strings are never empty. -/
theorem natDigits_ne_nil (n : Nat) : natDigits n ≠ [] := by
  by_cases h : n < 10
  · rw [natDigits_lt10 n h]; simp
  · rw [natDigits_ge10 n h]; simp

/-- Every character of a digit string is a decimal digit. -/
theorem natDigits_all_digits (n : Nat) : ∀ c ∈ natDigits n, (digitVal c).isSome = true := by
  induction n using Nat.strong_induction_on with
  | _ n ih =>
    by_cases h : n < 10
    · rw [natDigits_lt10 n h]
      intro c hc
      simp only [List.mem_singleton] at hc
      rw [hc, digitVal_dig n h]
      rfl
    · rw [natDigits_ge10 n h]
      intro c hc
      rcases List.mem_append.1 hc with h1 | h1
      · exact ih (n / 10) (by omega) c h1
      · simp only [List.mem_singleton] at h1
        rw [h1, digitVal_dig (n % 10) (by omega)]
        rfl

/-- The greedy digit scan stops at a non-digit boundary. -/
theorem parseDigitsAux_stop (l : GoStr) (h : noLeadDigit l) (acc : Nat) :
    parseDigitsAux acc l = (acc, l) := by
  cases l with
  | nil => rfl
  | cons c rest =>
    have hc : digitVal c = none := h
    conv_lhs => unfold parseDigitsAux
    rw [hc]

/-- The greedy digit scan accumulates a full digit string. -/
theorem parseDigitsAux_natDigits (n : Nat) : ∀ (rest : GoStr) (acc : Nat),
    parseDigitsAux acc (natDigits n ++ rest)
      = parseDigitsAux (acc * 10 ^ (natDigits n).length + n) rest := by
  induction n using Nat.strong_induction_on with
  | _ n ih =>
    intro rest acc
    have key : ∀ Q m : Nat, (Q + m / 10) * 10 + m % 10 = Q * 10 + m := by
      intro Q m; omega
    by_cases h : n < 10
    · rw [natDigits_lt10 n h, List.cons_append, List.nil_append]
      conv_lhs => unfold parseDigitsAux
      rw [digitVal_dig n h]
      simp only [List.length_cons, List.length_nil, pow_one, zero_add]
    · rw [natDigits_ge10 n h, List.append_assoc, ih (n / 10) (by omega),
        List.cons_append, List.nil_append]
      conv_lhs => unfold parseDigitsAux
      rw [digitVal_dig (n % 10) (by omega)]
      simp only []
      rw [key (acc * 10 ^ (natDigits (n / 10)).length) n,
        List.length_append, List.length_cons, List.length_nil, pow_succ, mul_assoc]

/-- The greedy digit scan on a digit string followed by a non-digit
    boundary returns the number and the boundary. -/
theorem parseDigitsAux_full (n : Nat) (rest : GoStr) (h : noLeadDigit rest) :
    parseDigitsAux 0 (natDigits n ++ rest) = (n, rest) := by
  rw [parseDigitsAux_natDigits n rest 0, parseDigitsAux_stop rest h]
  simp

/-- Hex digit characters parse back to their value, over `Fin 16`. -/
theorem hexVal_hexDig_fin : ∀ m : Fin 16, hexVal (hexDig m.val) = some m.val := by decide

/-- Hex digit characters parse back to their value. -/
theorem hexVal_hexDig (m : Nat) (h : m < 16) : hexVal (hexDig m) = some m :=
  hexVal_hexDig_fin ⟨m, h⟩

/-- One parse unit undoes the escaping of one character. -/
theorem parseStrChunk_escape (c : Char) (X : GoStr) :
    parseStrChunk (jsonEscChar c ++ X) = some (some c, X) := by
  by_cases h1 : c = '"'
  · have hesc : jsonEscChar c = ['\\', '"'] := by
      unfold jsonEscChar; rw [if_pos h1]
    subst h1; rw [hesc]; rfl
  · by_cases h2 : c = '\\'
    · have hesc : jsonEscChar c = ['\\', '\\'] := by
        unfold jsonEscChar; rw [if_neg h1, if_pos h2]
      subst h2; rw [hesc]; rfl
    · by_cases h3 : c = '\n'
      · have hesc : jsonEscChar c = ['\\', 'n'] := by
          unfold jsonEscChar; rw [if_neg h1, if_neg h2, if_pos h3]
        subst h3; rw [hesc]; rfl
      · by_cases h4 : c = '\r'
        · have hesc : jsonEscChar c = ['\\', 'r'] := by
            unfold jsonEscChar; rw [if_neg h1, if_neg h2, if_neg h3, if_pos h4]
          subst h4; rw [hesc]; rfl
        · by_cases h5 : c = '\t'
          · have hesc : jsonEscChar c = ['\\', 't'] := by
              unfold jsonEscChar; rw [if_neg h1, if_neg h2, if_neg h3, if_neg h4, if_pos h5]
            subst h5; rw [hesc]; rfl
          · by_cases h6 : c.toNat < 0x20
            · have hesc : jsonEscChar c = ['\\', 'u', '0', '0',
                  hexDig (c.toNat / 16), hexDig (c.toNat % 16)] := by
                unfold jsonEscChar
                rw [if_neg h1, if_neg h2, if_neg h3, if_neg h4, if_neg h5, if_pos h6]
              rw [hesc]
              show parseStrChunk ('\\' :: 'u' :: '0' :: '0' :: hexDig (c.toNat / 16)
                :: hexDig (c.toNat % 16) :: X) = _
              conv_lhs => unfold parseStrChunk
              simp only []
              rw [if_neg (by decide), if_pos trivial]
              rw [if_neg (by decide), if_neg (by decide), if_neg (by decide),
                if_neg (by decide), if_neg (by decide), if_neg (by decide),
                if_neg (by decide), if_neg (by decide), if_pos trivial]
              rw [show hexVal '0' = some 0 from rfl,
                hexVal_hexDig (c.toNat / 16) (by omega),
                hexVal_hexDig (c.toNat % 16) (by omega)]
              simp only []
              rw [show 0 * 4096 + 0 * 256 + c.toNat / 16 * 16 + c.toNat % 16 = c.toNat from
                  by omega,
                if_pos (isValidChar_of_ranges c.toNat (Or.inl (by omega))), Char.ofNat_toNat]
            · by_cases h7 : c = '<'
              · have hesc : jsonEscChar c = ['\\', 'u', '0', '0', '3', 'c'] := by
                  unfold jsonEscChar
                  rw [if_neg h1, if_neg h2, if_neg h3, if_neg h4, if_neg h5, if_neg h6,
                    if_pos h7]
                subst h7; rw [hesc]; rfl
              · by_cases h8 : c = '>'
                · have hesc : jsonEscChar c = ['\\', 'u', '0', '0', '3', 'e'] := by
                    unfold jsonEscChar
                    rw [if_neg h1, if_neg h2, if_neg h3, if_neg h4, if_neg h5, if_neg h6,
                      if_neg h7, if_pos h8]
                  subst h8; rw [hesc]; rfl
                · by_cases h9 : c = '&'
                  · have hesc : jsonEscChar c = ['\\', 'u', '0', '0', '2', '6'] := by
                      unfold jsonEscChar
                      rw [if_neg h1, if_neg h2, if_neg h3, if_neg h4, if_neg h5, if_neg h6,
                        if_neg h7, if_neg h8, if_pos h9]
                    subst h9; rw [hesc]; rfl
                  · by_cases h10 : c.toNat = 0x2028
                    · have hesc : jsonEscChar c = ['\\', 'u', '2', '0', '2', '8'] := by
                        unfold jsonEscChar
                        rw [if_neg h1, if_neg h2, if_neg h3, if_neg h4, if_neg h5, if_neg h6,
                          if_neg h7, if_neg h8, if_neg h9, if_pos h10]
                      have hcval : c = Char.ofNat 0x2028 := by
                        rw [← h10, Char.ofNat_toNat]
                      rw [hesc, hcval]
                      rfl
                    · by_cases h11 : c.toNat = 0x2029
                      · have hesc : jsonEscChar c = ['\\', 'u', '2', '0', '2', '9'] := by
                          unfold jsonEscChar
                          rw [if_neg h1, if_neg h2, if_neg h3, if_neg h4, if_neg h5, if_neg h6,
                            if_neg h7, if_neg h8, if_neg h9, if_neg h10, if_pos h11]
                        have hcval : c = Char.ofNat 0x2029 := by
                          rw [← h11, Char.ofNat_toNat]
                        rw [hesc, hcval]
                        rfl
                      · have hesc : jsonEscChar c = [c] := by
                          unfold jsonEscChar
                          rw [if_neg h1, if_neg h2, if_neg h3, if_neg h4, if_neg h5, if_neg h6,
                            if_neg h7, if_neg h8, if_neg h9, if_neg h10, if_neg h11]
                        rw [hesc, List.cons_append, List.nil_append]
                        conv_lhs => unfold parseStrChunk
                        simp only []
                        rw [if_neg h1, if_neg h2]

set_option maxHeartbeats 1000000 in
/-- Each escaped character is at least one character long. -/
theorem jsonEscChar_length_pos (c : Char) : 1 ≤ (jsonEscChar c).length := by
  unfold jsonEscChar
  split_ifs <;> simp

/-- Escaping does not shorten a string. -/
theorem jsonEscape_length (s : GoStr) : s.length ≤ (jsonEscape s).length := by
  induction s with
  | nil => simp [jsonEscape]
  | cons c s2 ih =>
    have hsplit : jsonEscape (c :: s2) = jsonEscChar c ++ jsonEscape s2 := by
      simp [jsonEscape]
    rw [hsplit, List.length_append, List.length_cons]
    have := jsonEscChar_length_pos c
    omega

/-- With enough fuel, the string body loop undoes marshalling escaping. -/
theorem parseStringBodyF_escape : ∀ (s : GoStr) (fuel : Nat) (tail : GoStr),
    s.length < fuel →
    parseStringBodyF fuel (jsonEscape s ++ '"' :: tail) = some (s, tail) := by
  intro s
  induction s with
  | nil =>
    intro fuel tail hf
    cases fuel with
    | zero => omega
    | succ f =>
      show parseStringBodyF (f + 1) ('"' :: tail) = some ([], tail)
      conv_lhs => unfold parseStringBodyF
      rw [show parseStrChunk ('"' :: tail) = some (none, tail) from rfl]
  | cons c s2 ih =>
    intro fuel tail hf
    cases fuel with
    | zero => simp at hf
    | succ f =>
      have hsplit : jsonEscape (c :: s2) = jsonEscChar c ++ jsonEscape s2 := by
        simp [jsonEscape]
      rw [hsplit, List.append_assoc]
      conv_lhs => unfold parseStringBodyF
      rw [parseStrChunk_escape c (jsonEscape s2 ++ '"' :: tail)]
      simp only []
      rw [ih f tail (by simpa using hf)]
      rfl

/-- The JSON string parser undoes `json.Marshal` escaping: after the opening
    quote, an escaped body followed by the closing quote and a tail parses to
    the original body and the tail. -/
theorem parseStringBody_escape (s tail : GoStr) :
    parseStringBody (jsonEscape s ++ '"' :: tail) = some (s, tail) := by
  unfold parseStringBody
  apply parseStringBodyF_escape
  rw [List.length_append, List.length_cons]
  have := jsonEscape_length s
  omega

/-- `parseIntJ` inverts `intChars` at a non-digit boundary. -/
theorem parseIntJ_intChars (i : Int) (rest : GoStr) (h : noLeadDigit rest) :
    parseIntJ (intChars i ++ rest) = some (i, rest) := by
  by_cases hi : i < 0
  · have hich : intChars i = '-' :: natDigits i.natAbs := by
      unfold intChars; rw [if_pos hi]
    rw [hich, List.cons_append]
    conv_lhs => unfold parseIntJ
    simp only []
    rw [if_pos trivial]
    cases hnd : natDigits i.natAbs with
    | nil => exact absurd hnd (natDigits_ne_nil _)
    | cons c l2 =>
      have hcs : (digitVal c).isSome = true :=
        natDigits_all_digits _ c (by rw [hnd]; exact List.mem_cons_self c l2)
      rw [List.cons_append]
      simp only []
      rw [if_pos hcs, ← List.cons_append, ← hnd, parseDigitsAux_full _ _ h]
      have hcast : -((i.natAbs : Nat) : Int) = i := by omega
      rw [hcast]
  · have hich : intChars i = natDigits i.toNat := by
      unfold intChars; rw [if_neg hi]
    rw [hich]
    cases hnd : natDigits i.toNat with
    | nil => exact absurd hnd (natDigits_ne_nil _)
    | cons c l2 =>
      have hcs : (digitVal c).isSome = true :=
        natDigits_all_digits _ c (by rw [hnd]; exact List.mem_cons_self c l2)
      have hcm : ¬ c = '-' := by
        intro he
        rw [he] at hcs
        exact absurd hcs (by decide)
      rw [List.cons_append]
      conv_lhs => unfold parseIntJ
      simp only []
      rw [if_neg hcm, if_pos hcs, ← List.cons_append, ← hnd, parseDigitsAux_full _ _ h]
      have hcast : ((i.toNat : Nat) : Int) = i := by omega
      rw [hcast]

/-- A cons with a non-digit head is a digit-scan boundary. -/
theorem noLeadDigit_cons (c : Char) (l : GoStr) (h : digitVal c = none) :
    noLeadDigit (c :: l) := h

/-- Parsing the `offset` member. -/
theorem parseMember_offset (st : PaginationState) (off : Int) (r2 : GoStr)
    (h : noLeadDigit r2) :
    parseMember st ('"' :: (jsonEscape (str "offset") ++ '"' :: ':' :: (intChars off ++ r2)))
      = some ({ st with offset := off }, r2) := by
  conv_lhs => unfold parseMember
  simp only []
  rw [parseStringBody_escape (str "offset") (':' :: (intChars off ++ r2))]
  simp only []
  rw [if_pos trivial, parseIntJ_intChars off r2 h]

/-- Parsing the `type` member. -/
theorem parseMember_type (st : PaginationState) (v r3 : GoStr) :
    parseMember st ('"' :: (jsonEscape (str "type")
        ++ '"' :: ':' :: '"' :: (jsonEscape v ++ '"' :: r3)))
      = some ({ st with ptype := v }, r3) := by
  conv_lhs => unfold parseMember
  simp only []
  rw [parseStringBody_escape (str "type") (':' :: '"' :: (jsonEscape v ++ '"' :: r3))]
  simp only []
  rw [if_pos trivial, parseStringBody_escape v r3]
  rfl

/-- Parsing the `namespace` member. -/
theorem parseMember_namespace (st : PaginationState) (v r3 : GoStr) :
    parseMember st ('"' :: (jsonEscape (str "namespace")
        ++ '"' :: ':' :: '"' :: (jsonEscape v ++ '"' :: r3)))
      = some ({ st with pnamespace := v }, r3) := by
  conv_lhs => unfold parseMember
  simp only []
  rw [parseStringBody_escape (str "namespace") (':' :: '"' :: (jsonEscape v ++ '"' :: r3))]
  simp only []
  rw [if_pos trivial, parseStringBody_escape v r3]
  rfl

/-- The object parser recovers a marshalled `PaginationState` from its
    member list, for any sufficient fuel. -/
theorem parseObjBody_marshal (stv : PaginationState) (fuel : Nat) :
    parseObjBody (fuel + 3) ⟨0, [], []⟩ (marshalBody stv) = some (stv, []) := by
  obtain ⟨off, k, ns⟩ := stv
  by_cases hns : (⟨off, k, ns⟩ : PaginationState).pnamespace.isEmpty = true
  · have hns2 : ns = [] := by
      cases ns with
      | nil => rfl
      | cons a t => simp at hns
    subst hns2
    have hreshape : marshalBody ⟨off, k, []⟩
        = '"' :: (jsonEscape (str "offset") ++ '"' :: ':' :: (intChars off
          ++ ',' :: '"' :: (jsonEscape (str "type")
            ++ '"' :: ':' :: '"' :: (jsonEscape k ++ '"' :: ['}'])))) := by
      unfold marshalBody
      rw [if_pos hns]
      rw [show jsonEscape (str "offset") = str "offset" from by decide,
        show jsonEscape (str "type") = str "type" from by decide,
        show str "\"offset\":" = '"' :: (str "offset" ++ ['"', ':']) from by decide,
        show str ",\"type\":\"" = ',' :: '"' :: (str "type" ++ ['"', ':', '"']) from by decide,
        show str "\"" = ['"'] from by decide]
      simp [List.append_assoc]
    rw [hreshape]
    show parseObjBody ((fuel + 2) + 1) ⟨0, [], []⟩ _ = _
    conv_lhs => unfold parseObjBody
    simp only []
    rw [if_neg (by decide),
      parseMember_offset ⟨0, [], []⟩ off _ (noLeadDigit_cons ',' _ (by decide))]
    simp only []
    rw [show afterValue (',' :: '"' :: (jsonEscape (str "type")
        ++ '"' :: ':' :: '"' :: (jsonEscape k ++ '"' :: ['}'])))
      = some (true, '"' :: (jsonEscape (str "type")
        ++ '"' :: ':' :: '"' :: (jsonEscape k ++ '"' :: ['}']))) from rfl]
    simp only []
    show parseObjBody ((fuel + 1) + 1) ⟨off, [], []⟩ _ = _
    conv_lhs => unfold parseObjBody
    simp only []
    rw [if_neg (by decide), parseMember_type ⟨off, [], []⟩ k ['}']]
    simp only []
    rw [show afterValue ['}'] = some (false, []) from rfl]
  · have hns2 : ns ≠ [] := by
      intro he
      rw [he] at hns
      simp at hns
    have hreshape : marshalBody ⟨off, k, ns⟩
        = '"' :: (jsonEscape (str "offset") ++ '"' :: ':' :: (intChars off
          ++ ',' :: '"' :: (jsonEscape (str "type")
            ++ '"' :: ':' :: '"' :: (jsonEscape k
              ++ '"' :: ',' :: '"' :: (jsonEscape (str "namespace")
                ++ '"' :: ':' :: '"' :: (jsonEscape ns ++ '"' :: ['}'])))))) := by
      unfold marshalBody
      rw [if_neg hns]
      rw [show jsonEscape (str "offset") = str "offset" from by decide,
        show jsonEscape (str "type") = str "type" from by decide,
        show jsonEscape (str "namespace") = str "namespace" from by decide,
        show str "\"offset\":" = '"' :: (str "offset" ++ ['"', ':']) from by decide,
        show str ",\"type\":\"" = ',' :: '"' :: (str "type" ++ ['"', ':', '"']) from by decide,
        show str ",\"namespace\":\""
          = ',' :: '"' :: (str "namespace" ++ ['"', ':', '"']) from by decide,
        show str "\"" = ['"'] from by decide]
      simp [List.append_assoc]
    rw [hreshape]
    show parseObjBody ((fuel + 2) + 1) ⟨0, [], []⟩ _ = _
    conv_lhs => unfold parseObjBody
    simp only []
    rw [if_neg (by decide),
      parseMember_offset ⟨0, [], []⟩ off _ (noLeadDigit_cons ',' _ (by decide))]
    simp only []
    rw [show afterValue (',' :: '"' :: (jsonEscape (str "type")
        ++ '"' :: ':' :: '"' :: (jsonEscape k
          ++ '"' :: ',' :: '"' :: (jsonEscape (str "namespace")
            ++ '"' :: ':' :: '"' :: (jsonEscape ns ++ '"' :: ['}'])))))
      = some (true, '"' :: (jsonEscape (str "type")
        ++ '"' :: ':' :: '"' :: (jsonEscape k
          ++ '"' :: ',' :: '"' :: (jsonEscape (str "namespace")
            ++ '"' :: ':' :: '"' :: (jsonEscape ns ++ '"' :: ['}']))))) from rfl]
    simp only []
    show parseObjBody ((fuel + 1) + 1) ⟨off, [], []⟩ _ = _
    conv_lhs => unfold parseObjBody
    simp only []
    rw [if_neg (by decide),
      parseMember_type ⟨off, [], []⟩ k (',' :: '"' :: (jsonEscape (str "namespace")
        ++ '"' :: ':' :: '"' :: (jsonEscape ns ++ '"' :: ['}'])))]
    simp only []
    rw [show afterValue (',' :: '"' :: (jsonEscape (str "namespace")
        ++ '"' :: ':' :: '"' :: (jsonEscape ns ++ '"' :: ['}'])))
      = some (true, '"' :: (jsonEscape (str "namespace")
        ++ '"' :: ':' :: '"' :: (jsonEscape ns ++ '"' :: ['}']))) from rfl]
    simp only []
    show parseObjBody (fuel + 1) ⟨off, k, []⟩ _ = _
    cases fuel with
    | zero =>
      conv_lhs => unfold parseObjBody
      simp only []
      rw [if_neg (by decide), parseMember_namespace ⟨off, k, []⟩ ns ['}']]
      simp only []
      rw [show afterValue ['}'] = some (false, []) from rfl]
    | succ f =>
      conv_lhs => unfold parseObjBody
      simp only []
      rw [if_neg (by decide), parseMember_namespace ⟨off, k, []⟩ ns ['}']]
      simp only []
      rw [show afterValue ['}'] = some (false, []) from rfl]

/-- The marshalled member list is never shorter than three characters. -/
theorem marshalBody_length (st : PaginationState) : 3 ≤ (marshalBody st).length := by
  unfold marshalBody
  simp only [List.length_append]
  have : (str "\"offset\":").length = 9 := by decide
  omega

/-- `json.Unmarshal` recovers a marshalled `PaginationState` exactly. -/
theorem unmarshal_marshal (stv : PaginationState) :
    unmarshalState (utf8Str (marshalState stv)) = some stv := by
  unfold unmarshalState
  rw [utf8_roundtrip (marshalState stv)]
  simp only []
  rw [show marshalState stv = '{' :: marshalBody stv from rfl]
  simp only []
  obtain ⟨fuel, hfuel⟩ : ∃ fuel, ('{' :: marshalBody stv).length = fuel + 3 := by
    have := marshalBody_length stv
    exact ⟨('{' :: marshalBody stv).length - 3, by simp; omega⟩
  rw [hfuel, parseObjBody_marshal stv fuel]
  rfl

/-- The marshalled bytes are never empty. -/
theorem utf8_marshal_ne_nil (stv : PaginationState) :
    utf8Str (marshalState stv) ≠ [] := by
  rw [show marshalState stv = '{' :: marshalBody stv from rfl]
  have hsplit : utf8Str ('{' :: marshalBody stv)
      = utf8Char '{' ++ utf8Str (marshalBody stv) := by simp [utf8Str]
  rw [hsplit]
  intro he
  rcases List.append_eq_nil.1 he with ⟨h1, _⟩
  exact utf8Char_ne_nil '{' h1

/-- `parseContinueToken` is a left inverse of `generateContinueToken`:
    decoding a generated token recovers exactly the offset, kind and
    namespace that were encoded. -/
theorem parseContinueToken_roundtrip (off : Int) (kind ns : GoStr) :
    parseContinueToken (generateContinueToken off kind ns) = .ok ⟨off, kind, ns⟩ := by
  unfold generateContinueToken parseContinueToken
  have htok : b64Encode (utf8Str (marshalState ⟨off, kind, ns⟩)) ≠ [] :=
    b64Encode_ne_nil _ (utf8_marshal_ne_nil ⟨off, kind, ns⟩)
  have hie : (b64Encode (utf8Str (marshalState ⟨off, kind, ns⟩))).isEmpty = false := by
    cases h : b64Encode (utf8Str (marshalState ⟨off, kind, ns⟩)) with
    | nil => exact absurd h htok
    | cons a t => rfl
  rw [if_neg (by simp [hie]),
    b64_roundtrip _ (utf8Str_lt256 (marshalState ⟨off, kind, ns⟩))]
  simp only []
  rw [unmarshal_marshal ⟨off, kind, ns⟩]

/-- One node-metrics pagination call, at an offset past the collection:
    empty page, no continue token. -/
theorem GetNodeMetricsPage_past {α : Type} (items : List α) (k : Int) (tok : GoStr)
    (st : PaginationState) (hp : parseContinueToken tok = .ok st)
    (hA : (items.length : Int) ≤ st.offset) :
    GetNodeMetricsPage items k tok = .ok ([], none) := by
  unfold GetNodeMetricsPage
  rw [hp]
  simp only []
  rw [show paginateItems items k st.offset = some ([], false) from by
    unfold paginateItems; rw [if_pos hA]]
  rfl

/-- One node-metrics pagination call on the last page: the remaining items,
    no continue token. -/
theorem GetNodeMetricsPage_last {α : Type} (items : List α) (k : Int) (tok : GoStr)
    (st : PaginationState) (hp : parseContinueToken tok = .ok st)
    (h0 : 0 ≤ st.offset) (hk : 0 < k)
    (hB : st.offset < (items.length : Int)) (hC : ¬ st.offset + k < (items.length : Int)) :
    GetNodeMetricsPage items k tok = .ok (items.drop st.offset.toNat, none) := by
  unfold GetNodeMetricsPage
  rw [hp]
  simp only []
  have he2 : (if (items.length : Int) < st.offset + k
      then (items.length : Int) else st.offset + k) - st.offset ≥ items.length - st.offset := by
    split <;> omega
  have hpag : paginateItems items k st.offset
      = some ((items.drop st.offset.toNat).take
          ((if (items.length : Int) < st.offset + k
            then (items.length : Int) else st.offset + k) - st.offset).toNat, false) := by
    unfold paginateItems
    rw [if_neg (by omega), if_pos (by refine ⟨h0, ?_⟩; split <;> omega),
      decide_eq_false hC]
  rw [hpag]
  simp only []
  rw [List.take_of_length_le (by
    rw [List.length_drop]
    omega)]
  rfl

/-- One node-metrics pagination call on a middle page: `k` items and a
    continue token at `offset + k` with kind `"node"`, empty namespace. -/
theorem GetNodeMetricsPage_mid {α : Type} (items : List α) (k : Int) (tok : GoStr)
    (st : PaginationState) (hp : parseContinueToken tok = .ok st)
    (h0 : 0 ≤ st.offset) (hk : 0 < k)
    (hC : st.offset + k < (items.length : Int)) :
    GetNodeMetricsPage items k tok
      = .ok ((items.drop st.offset.toNat).take k.toNat,
          some (generateContinueToken (st.offset + k) (str "node") [])) := by
  unfold GetNodeMetricsPage
  rw [hp]
  simp only []
  have hpag : paginateItems items k st.offset
      = some ((items.drop st.offset.toNat).take
          ((if (items.length : Int) < st.offset + k
            then (items.length : Int) else st.offset + k) - st.offset).toNat, true) := by
    unfold paginateItems
    rw [if_neg (by omega), if_pos (by refine ⟨h0, ?_⟩; split <;> omega),
      decide_eq_true hC]
  rw [hpag]
  simp only []
  rw [if_neg (by omega : ¬ (items.length : Int) < st.offset + k),
    show st.offset + k - st.offset = k from by ring]
  rfl

/-- Offset-indexed correctness of the node-metrics pagination chain: with
    enough fuel, starting from any token that decodes to offset `o ≥ 0`,
    the chain terminates and collects exactly the items from `o` on. -/
theorem nodeChain_from {α : Type} (items : List α) (k : Int) (hk : 0 < k) :
    ∀ (fuel : Nat) (tok : GoStr) (st : PaginationState),
      parseContinueToken tok = .ok st → 0 ≤ st.offset →
      (items.length : Int) < st.offset + (fuel + 1) →
      nodeChain items k tok (fuel + 1) = some (items.drop st.offset.toNat) := by
  intro fuel
  induction fuel using Nat.strong_induction_on with
  | _ fuel ih =>
    intro tok st hp h0 hlen
    by_cases hA : (items.length : Int) ≤ st.offset
    · conv_lhs => unfold nodeChain
      rw [GetNodeMetricsPage_past items k tok st hp hA]
      simp only []
      rw [List.drop_eq_nil_of_le (by omega : items.length ≤ st.offset.toNat)]
    · by_cases hC : st.offset + k < (items.length : Int)
      · conv_lhs => unfold nodeChain
        rw [GetNodeMetricsPage_mid items k tok st hp h0 hk hC]
        simp only []
        cases fuel with
        | zero => omega
        | succ f2 =>
          rw [ih f2 (by omega) (generateContinueToken (st.offset + k) (str "node") [])
            ⟨st.offset + k, str "node", []⟩
            (parseContinueToken_roundtrip (st.offset + k) (str "node") [])
            (by simp; omega) (by simp; omega)]
          simp only [Option.map_some']
          rw [show ((st.offset + k).toNat : Nat) = st.offset.toNat + k.toNat from by omega,
            ← List.drop_drop, List.take_append_drop]
      · conv_lhs => unfold nodeChain
        rw [GetNodeMetricsPage_last items k tok st hp h0 hk (by omega) hC]

/-- C1: starting from the empty continue token with page size `k > 0`,
    repeatedly calling the node-metrics pagination and following the
    returned continue tokens (each carrying `offset + k`, kind `"node"`,
    empty namespace) terminates and yields pages whose concatenation is
    exactly the item list, in order, with no duplicates and no omissions. -/
theorem nodeMetrics_pagination_chain_exact {α : Type} (items : List α) (k : Int)
    (hk : 0 < k) :
    nodeChain items k [] (items.length + 1) = some items := by
  have h := nodeChain_from items k hk items.length [] ⟨0, [], []⟩ rfl (le_refl (0 : Int))
    (show (items.length : Int) < 0 + (((items.length : Nat) + 1 : Nat) : Int) from
      by push_cast; omega)
  simpa using h

end handlers

open handlers in
/-- Closed instance of `nodeMetrics_pagination_chain_exact`: paginating
    `[10, 20, 30]` two at a time through the token chain yields the whole
    list back. -/
theorem nodeMetrics_pagination_chain_exact_witness :
    nodeChain ([10, 20, 30] : List Nat) 2 [] 4 = some [10, 20, 30] :=
  nodeMetrics_pagination_chain_exact [10, 20, 30] 2 (by decide)

open handlers in
/-- C5 (counterexample): the generated continue token is not unpadded — for
    offset 5, kind `"node"`, empty namespace it contains the `'='` padding
    character (Go's `base64.URLEncoding` is the padded URL-safe encoding). -/
theorem continue_token_contains_padding :
    '=' ∈ generateContinueToken 5 (str "node") [] := by decide

open handlers in
/-- C5 (amended): every generated continue token consists of URL-safe
    base64 alphabet characters and the `'='` pad (the encoding is Go's
    padded `base64.URLEncoding` over the JSON record), and decoding a
    generated token recovers exactly the offset, kind and namespace that
    were encoded. -/
theorem continue_token_urlsafe_roundtrip (off : Int) (kind ns : GoStr) :
    (∀ c ∈ generateContinueToken off kind ns, urlSafeB64Char c = true ∨ c = '=')
    ∧ parseContinueToken (generateContinueToken off kind ns) = .ok ⟨off, kind, ns⟩ :=
  ⟨b64Encode_chars _ (utf8Str_lt256 (marshalState ⟨off, kind, ns⟩)),
    parseContinueToken_roundtrip off kind ns⟩

open handlers in
/-- C3 (counterexample): the node-metrics pagination accepts a continue
    token whose kind is `"pod"` — it decodes it, paginates with its offset
    and returns a page, instead of rejecting the kind mismatch. -/
theorem nodeMetrics_accepts_pod_token :
    parseContinueToken (generateContinueToken 0 (str "pod") [])
      = .ok ⟨0, str "pod", []⟩
    ∧ GetNodeMetricsPage ([0, 1] : List Nat) 1 (generateContinueToken 0 (str "pod") [])
      = .ok ([0], some (generateContinueToken (0 + 1) (str "node") [])) :=
  ⟨by decide, by decide⟩

namespace handlers

/-- C3 (amended): only the pod-metrics pagination validates the token's
    kind: a decoded token whose kind is non-empty and differs from `"pod"`
    is rejected with the kind-mismatch error.  The node-metrics pagination
    performs no kind validation at all. -/
theorem podMetrics_kind_mismatch_rejected {α : Type} (items : List α) (limit : Int)
    (ns tok : GoStr) (st : PaginationState)
    (hp : parseContinueToken tok = .ok st)
    (h1 : st.ptype ≠ []) (h2 : st.ptype ≠ str "pod") :
    GetPodMetricsPage items limit ns tok
      = .error (str "continue token is not valid for pod metrics") := by
  unfold GetPodMetricsPage
  rw [hp]
  simp only []
  rw [if_pos ⟨h1, h2⟩]

end handlers

open handlers in
/-- Closed instance of `podMetrics_kind_mismatch_rejected`: a node-kind
    token fed to the pod-metrics pagination is rejected. -/
theorem podMetrics_kind_mismatch_rejected_witness :
    GetPodMetricsPage ([0] : List Nat) 1 [] (generateContinueToken 3 (str "node") [])
      = .error (str "continue token is not valid for pod metrics") :=
  podMetrics_kind_mismatch_rejected [0] 1 [] (generateContinueToken 3 (str "node") [])
    ⟨3, str "node", []⟩ (parseContinueToken_roundtrip 3 (str "node") [])
    (by decide) (by decide)

namespace kubernetes

/-- `optOr` with no fallback is the identity. -/
theorem optOr_none_right {α : Type} (o : Option α) : optOr o none = o := by
  cases o <;> rfl

/-- `optOr` is associative. -/
theorem optOr_assoc {α : Type} (a b c : Option α) :
    optOr (optOr a b) c = optOr a (optOr b c) := by
  cases a <;> rfl

/-- Lookup distributes over a front insertion. -/
theorem mapLookup_cons (k' : GoStr) (v' : ResourceInfo)
    (m : List (GoStr × ResourceInfo)) (k : GoStr) :
    mapLookup ((k', v') :: m) k = if k' = k then some v' else mapLookup m k := by
  by_cases h : k' = k <;> simp [mapLookup, List.find?, h]

/-- A successful lookup comes from an entry of the list. -/
theorem mapLookup_mem (m : List (GoStr × ResourceInfo)) (k : GoStr)
    (v : ResourceInfo) (h : mapLookup m k = some v) :
    ∃ p, p ∈ m ∧ p.2 = v := by
  unfold mapLookup at h
  cases hf : m.find? (fun p => p.1 = k) with
  | none => rw [hf] at h; exact absurd h (by simp)
  | some p =>
    rw [hf] at h
    exact ⟨p, List.mem_of_find?_eq_some hf, Option.some.inj h⟩

/-- The map field of `processName`, written out. -/
theorem processName_ntr (hint listGV : GoStr) (info : ResourceInfo)
    (st : BuildState) (nm : GoStr) :
    (processName hint listGV info st nm).nameToResource =
      if nm = [] then st.nameToResource
      else match mapLookup st.nameToResource (goToLower nm) with
        | none => (goToLower nm, info) :: st.nameToResource
        | some ex =>
          if hint ≠ [] ∧ ex.apiVersion ≠ hint ∧ info.apiVersion = hint
          then (goToLower nm, info) :: st.nameToResource
          else st.nameToResource := by
  by_cases h : nm = [] <;> simp [processName, h]

/-- Registering one name keeps the version invariant. -/
theorem processName_good (hint listGV : GoStr) (info : ResourceInfo)
    (st : BuildState) (nm : GoStr)
    (hinfo : info.apiVersion = listGV) (hgv : hint ≠ [] → listGV = hint)
    (hgood : goodMap hint st.nameToResource) :
    goodMap hint (processName hint listGV info st nm).nameToResource := by
  rw [processName_ntr]
  by_cases h : nm = []
  · rw [if_pos h]; exact hgood
  · rw [if_neg h]
    cases hl : mapLookup st.nameToResource (goToLower nm) with
    | none =>
      simp only []
      intro p hp h1
      rcases List.mem_cons.mp hp with he | hm
      · subst he; exact hinfo.trans (hgv h1)
      · exact hgood p hm h1
    | some ex =>
      simp only []
      by_cases hc : hint ≠ [] ∧ ex.apiVersion ≠ hint ∧ info.apiVersion = hint
      · rw [if_pos hc]
        intro p hp h1
        rcases List.mem_cons.mp hp with he | hm
        · subst he; exact hc.2.2
        · exact hgood p hm h1
      · rw [if_neg hc]; exact hgood

/-- Effect of registering one name on a later lookup: an already bound key
    keeps its binding (the overwrite branch never fires under the version
    invariant), and an unbound key becomes bound exactly when this name
    lower-cases to it. -/
theorem processName_lookup (hint listGV key : GoStr) (info : ResourceInfo)
    (st : BuildState) (nm : GoStr)
    (hinfo : info.apiVersion = listGV) (hgv : hint ≠ [] → listGV = hint)
    (hgood : goodMap hint st.nameToResource) :
    mapLookup (processName hint listGV info st nm).nameToResource key =
      optOr (mapLookup st.nameToResource key)
        (if nm ≠ [] ∧ goToLower nm = key then some info else none) := by
  rw [processName_ntr]
  by_cases h : nm = []
  · rw [if_pos h]
    rw [if_neg (by simp [h])]
    exact (optOr_none_right _).symm
  · rw [if_neg h]
    cases hl : mapLookup st.nameToResource (goToLower nm) with
    | none =>
      simp only []
      rw [mapLookup_cons]
      by_cases hk : goToLower nm = key
      · subst hk
        rw [if_pos rfl, hl, if_pos ⟨h, rfl⟩]
        rfl
      · rw [if_neg hk, if_neg (fun hx => hk hx.2)]
        exact (optOr_none_right _).symm
    | some ex =>
      simp only []
      have hcond : ¬ (hint ≠ [] ∧ ex.apiVersion ≠ hint ∧ info.apiVersion = hint) := by
        rintro ⟨h1, h2, h3⟩
        obtain ⟨p, hp, hpe⟩ := mapLookup_mem _ _ _ hl
        exact h2 (hpe ▸ hgood p hp h1)
      rw [if_neg hcond]
      by_cases hk : goToLower nm = key
      · subst hk
        rw [hl]
        rfl
      · rw [if_neg (fun hx => hk hx.2)]
        exact (optOr_none_right _).symm

/-- Unfolding of the spec-side per-name scan. -/
theorem firstInNames_cons (info : ResourceInfo) (key nm : GoStr) (nms : List GoStr) :
    firstInNames info key (nm :: nms) =
      optOr (if nm ≠ [] ∧ goToLower nm = key then some info else none)
        (firstInNames info key nms) := by
  by_cases hc : nm ≠ [] ∧ goToLower nm = key
  · conv_lhs => unfold firstInNames
    rw [if_pos hc, if_pos hc]
    rfl
  · conv_lhs => unfold firstInNames
    rw [if_neg hc, if_neg hc]
    rfl

/-- The version invariant survives the fold over a resource's names. -/
theorem foldl_processName_good (hint listGV : GoStr) (info : ResourceInfo)
    (nms : List GoStr) (st : BuildState)
    (hinfo : info.apiVersion = listGV) (hgv : hint ≠ [] → listGV = hint)
    (hgood : goodMap hint st.nameToResource) :
    goodMap hint (List.foldl (processName hint listGV info) st nms).nameToResource := by
  induction nms generalizing st with
  | nil => exact hgood
  | cons nm nms ih => exact ih _ (processName_good hint listGV info st nm hinfo hgv hgood)

/-- Lookup after the fold over a resource's names: the prior binding wins,
    else the first matching name of this resource. -/
theorem foldl_processName_lookup (hint listGV key : GoStr) (info : ResourceInfo)
    (nms : List GoStr) (st : BuildState)
    (hinfo : info.apiVersion = listGV) (hgv : hint ≠ [] → listGV = hint)
    (hgood : goodMap hint st.nameToResource) :
    mapLookup (List.foldl (processName hint listGV info) st nms).nameToResource key =
      optOr (mapLookup st.nameToResource key) (firstInNames info key nms) := by
  induction nms generalizing st with
  | nil => simp [firstInNames, optOr_none_right]
  | cons nm nms ih =>
    rw [List.foldl_cons, ih _ (processName_good hint listGV info st nm hinfo hgv hgood),
      processName_lookup hint listGV key info st nm hinfo hgv hgood, optOr_assoc]
    congr 1
    rw [firstInNames_cons]

/-- Registering one resource keeps the version invariant. -/
theorem processResource_good (hint listGV : GoStr) (gv : GroupVersion)
    (st : BuildState) (r : APIResource)
    (hgv : hint ≠ [] → listGV = hint)
    (hgood : goodMap hint st.nameToResource) :
    goodMap hint (processResource hint listGV gv st r).nameToResource := by
  unfold processResource
  by_cases hc : goContains r.name ['/'] = true
  · rw [if_pos hc]; exact hgood
  · rw [if_neg hc]
    exact foldl_processName_good hint listGV _ (resourceNames r) st rfl hgv hgood

/-- Lookup after registering one resource. -/
theorem processResource_lookup (hint listGV key : GoStr) (gv : GroupVersion)
    (st : BuildState) (r : APIResource)
    (hgv : hint ≠ [] → listGV = hint)
    (hgood : goodMap hint st.nameToResource) :
    mapLookup (processResource hint listGV gv st r).nameToResource key =
      optOr (mapLookup st.nameToResource key)
        (if goContains r.name ['/'] then none
         else firstInNames ⟨⟨gv.group, gv.version, r.name⟩, listGV⟩ key (resourceNames r)) := by
  unfold processResource
  by_cases hc : goContains r.name ['/'] = true
  · rw [if_pos hc, if_pos hc]
    exact (optOr_none_right _).symm
  · rw [if_neg hc, if_neg hc]
    exact foldl_processName_lookup hint listGV key _ (resourceNames r) st rfl hgv hgood

/-- Unfolding of the spec-side per-resource scan. -/
theorem firstInResources_cons (listGV : GoStr) (gv : GroupVersion) (key : GoStr)
    (r : APIResource) (rs : List APIResource) :
    firstInResources listGV gv key (r :: rs) =
      optOr (if goContains r.name ['/'] then none
        else firstInNames ⟨⟨gv.group, gv.version, r.name⟩, listGV⟩ key (resourceNames r))
        (firstInResources listGV gv key rs) := by
  conv_lhs => unfold firstInResources
  cases hx : (if goContains r.name ['/'] then none
    else firstInNames ⟨⟨gv.group, gv.version, r.name⟩, listGV⟩ key (resourceNames r)) <;> rfl

/-- The version invariant survives the fold over a list's resources. -/
theorem foldl_processResource_good (hint listGV : GoStr) (gv : GroupVersion)
    (rs : List APIResource) (st : BuildState)
    (hgv : hint ≠ [] → listGV = hint)
    (hgood : goodMap hint st.nameToResource) :
    goodMap hint (List.foldl (processResource hint listGV gv) st rs).nameToResource := by
  induction rs generalizing st with
  | nil => exact hgood
  | cons r rs ih => exact ih _ (processResource_good hint listGV gv st r hgv hgood)

/-- Lookup after the fold over a list's resources. -/
theorem foldl_processResource_lookup (hint listGV key : GoStr) (gv : GroupVersion)
    (rs : List APIResource) (st : BuildState)
    (hgv : hint ≠ [] → listGV = hint)
    (hgood : goodMap hint st.nameToResource) :
    mapLookup (List.foldl (processResource hint listGV gv) st rs).nameToResource key =
      optOr (mapLookup st.nameToResource key) (firstInResources listGV gv key rs) := by
  induction rs generalizing st with
  | nil => simp [firstInResources, optOr_none_right]
  | cons r rs ih =>
    rw [List.foldl_cons, ih _ (processResource_good hint listGV gv st r hgv hgood),
      processResource_lookup hint listGV key gv st r hgv hgood, optOr_assoc,
      firstInResources_cons]

/-- Registering one discovery list keeps the version invariant. -/
theorem processList_good (hint : GoStr) (st : BuildState) (l : APIResourceList)
    (hgood : goodMap hint st.nameToResource) :
    goodMap hint (processList hint st l).nameToResource := by
  unfold processList
  by_cases hc : hint ≠ [] ∧ l.groupVersion ≠ hint
  · rw [if_pos hc]; exact hgood
  · rw [if_neg hc]
    have hgv : hint ≠ [] → l.groupVersion = hint := fun h1 =>
      not_not.mp fun h2 => hc ⟨h1, h2⟩
    cases hp : parseGroupVersion l.groupVersion with
    | none => exact hgood
    | some gv =>
      exact foldl_processResource_good hint l.groupVersion gv l.apiResources st hgv hgood

/-- Unfolding of the spec-side per-list scan. -/
theorem specFirstRegistration_cons (hint key : GoStr) (l : APIResourceList)
    (ls : List APIResourceList) :
    specFirstRegistration hint key (l :: ls) =
      optOr (if hint ≠ [] ∧ l.groupVersion ≠ hint then none
        else match parseGroupVersion l.groupVersion with
          | none => none
          | some gv => firstInResources l.groupVersion gv key l.apiResources)
        (specFirstRegistration hint key ls) := by
  conv_lhs => unfold specFirstRegistration
  cases hx : (if hint ≠ [] ∧ l.groupVersion ≠ hint then none
    else match parseGroupVersion l.groupVersion with
      | none => none
      | some gv => firstInResources l.groupVersion gv key l.apiResources) <;> rfl

/-- Lookup after registering one discovery list. -/
theorem processList_lookup (hint key : GoStr) (st : BuildState) (l : APIResourceList)
    (hgood : goodMap hint st.nameToResource) :
    mapLookup (processList hint st l).nameToResource key =
      optOr (mapLookup st.nameToResource key)
        (if hint ≠ [] ∧ l.groupVersion ≠ hint then none
         else match parseGroupVersion l.groupVersion with
           | none => none
           | some gv => firstInResources l.groupVersion gv key l.apiResources) := by
  unfold processList
  by_cases hc : hint ≠ [] ∧ l.groupVersion ≠ hint
  · rw [if_pos hc, if_pos hc]
    exact (optOr_none_right _).symm
  · rw [if_neg hc, if_neg hc]
    have hgv : hint ≠ [] → l.groupVersion = hint := fun h1 =>
      not_not.mp fun h2 => hc ⟨h1, h2⟩
    cases hp : parseGroupVersion l.groupVersion with
    | none => exact (optOr_none_right _).symm
    | some gv =>
      exact foldl_processResource_lookup hint l.groupVersion key gv l.apiResources st hgv hgood

/-- The central registration theorem: the case-insensitive alias map built
    by `ResolveResourceType` answers every lookup with the first matching
    registration in catalog iteration order. -/
theorem lookup_buildState (ls : List APIResourceList) (hint key : GoStr) :
    mapLookup (buildState ls hint).nameToResource key =
      specFirstRegistration hint key ls := by
  unfold buildState
  have main : ∀ (ls : List APIResourceList) (st : BuildState),
      goodMap hint st.nameToResource →
      mapLookup (List.foldl (processList hint) st ls).nameToResource key =
        optOr (mapLookup st.nameToResource key) (specFirstRegistration hint key ls) := by
    intro ls
    induction ls with
    | nil =>
      intro st h
      simp [specFirstRegistration, optOr_none_right]
    | cons l ls ih =>
      intro st hgood
      rw [List.foldl_cons, ih _ (processList_good hint st l hgood),
        processList_lookup hint key st l hgood, optOr_assoc,
        specFirstRegistration_cons]
  have h0 : goodMap hint (BuildState.mk [] []).nameToResource := by
    intro p hp h1
    exact absurd hp (List.not_mem_nil p)
  rw [main ls ⟨[], []⟩ h0]
  rfl

/-- A hit of the spec-side per-name scan returns the scanned entry. -/
theorem firstInNames_version (info : ResourceInfo) (key : GoStr) (nms : List GoStr)
    (i : ResourceInfo) (h : firstInNames info key nms = some i) : i = info := by
  induction nms with
  | nil => exact absurd h (by simp [firstInNames])
  | cons nm nms ih =>
    rw [firstInNames_cons] at h
    by_cases hc : nm ≠ [] ∧ goToLower nm = key
    · rw [if_pos hc] at h
      exact (Option.some.inj h).symm
    · rw [if_neg hc] at h
      exact ih h

/-- A hit of the spec-side per-resource scan records the list's
    group/version as its version. -/
theorem firstInResources_version (listGV : GoStr) (gv : GroupVersion) (key : GoStr)
    (rs : List APIResource) (i : ResourceInfo)
    (h : firstInResources listGV gv key rs = some i) : i.apiVersion = listGV := by
  induction rs with
  | nil => exact absurd h (by simp [firstInResources])
  | cons r rs ih =>
    rw [firstInResources_cons] at h
    cases hx : (if goContains r.name ['/'] then none
      else firstInNames ⟨⟨gv.group, gv.version, r.name⟩, listGV⟩ key (resourceNames r)) with
    | none =>
      rw [hx] at h
      exact ih h
    | some j =>
      rw [hx] at h
      have hji : j = i := Option.some.inj h
      by_cases hc : goContains r.name ['/'] = true
      · rw [if_pos hc] at hx
        exact absurd hx (by simp)
      · rw [if_neg hc] at hx
        have hj := firstInNames_version _ key _ j hx
        rw [← hji, hj]

/-- When a version hint is given, any successful first registration comes
    from a list whose group/version equals the hint. -/
theorem specFirstRegistration_version (hint key : GoStr) (ls : List APIResourceList)
    (info : ResourceInfo) (h : specFirstRegistration hint key ls = some info)
    (h1 : hint ≠ []) : info.apiVersion = hint := by
  induction ls with
  | nil => exact absurd h (by simp [specFirstRegistration])
  | cons l ls ih =>
    rw [specFirstRegistration_cons] at h
    by_cases hc : hint ≠ [] ∧ l.groupVersion ≠ hint
    · rw [if_pos hc] at h
      exact ih h
    · rw [if_neg hc] at h
      have hgv : l.groupVersion = hint := not_not.mp fun h2 => hc ⟨h1, h2⟩
      cases hp : parseGroupVersion l.groupVersion with
      | none =>
        rw [hp] at h
        exact ih h
      | some gv =>
        rw [hp] at h
        simp only [] at h
        cases hf : firstInResources l.groupVersion gv key l.apiResources with
        | none =>
          rw [hf] at h
          exact ih h
        | some i =>
          rw [hf] at h
          have : i = info := Option.some.inj h
          subst this
          exact (firstInResources_version l.groupVersion gv key l.apiResources i hf).trans hgv

/-- Byte order holds of two strings whose heads are strictly ordered. -/
theorem strLe_cons_lt (x y : Char) (as bs : GoStr) (h : x.toNat < y.toNat) :
    strLe (x :: as) (y :: bs) = true := by
  simp [strLe, h]

/-- Byte order recurses on the tails under equal heads. -/
theorem strLe_cons_eq (x y : Char) (as bs : GoStr) (h : x.toNat = y.toNat)
    (h2 : strLe as bs = true) : strLe (x :: as) (y :: bs) = true := by
  simp [strLe, h, h2]

/-- Inversion of byte order on cons cells. -/
theorem strLe_cons_elim (x y : Char) (as bs : GoStr)
    (h : strLe (x :: as) (y :: bs) = true) :
    x.toNat < y.toNat ∨ (x.toNat = y.toNat ∧ strLe as bs = true) := by
  simp only [strLe] at h
  by_cases h1 : x.toNat < y.toNat
  · exact Or.inl h1
  · rw [if_neg h1] at h
    by_cases h2 : y.toNat < x.toNat
    · rw [if_pos h2] at h
      exact Bool.noConfusion h
    · rw [if_neg h2] at h
      exact Or.inr ⟨by omega, h⟩

/-- Byte order on strings is transitive. -/
theorem strLe_trans (a b c : GoStr) (hab : strLe a b = true) (hbc : strLe b c = true) :
    strLe a c = true := by
  induction a generalizing b c with
  | nil => rfl
  | cons x as ih =>
    cases b with
    | nil => exact absurd hab (by simp [strLe])
    | cons y bs =>
      cases c with
      | nil => exact absurd hbc (by simp [strLe])
      | cons z cs =>
        rcases strLe_cons_elim x y as bs hab with h1 | ⟨h1, hab2⟩
        · rcases strLe_cons_elim y z bs cs hbc with h2 | ⟨h2, hbc2⟩
          · exact strLe_cons_lt x z as cs (by omega)
          · exact strLe_cons_lt x z as cs (by omega)
        · rcases strLe_cons_elim y z bs cs hbc with h2 | ⟨h2, hbc2⟩
          · exact strLe_cons_lt x z as cs (by omega)
          · exact strLe_cons_eq x z as cs (by omega) (ih bs cs hab2 hbc2)

/-- Byte order on strings is total. -/
theorem strLe_total (a b : GoStr) : strLe a b = true ∨ strLe b a = true := by
  induction a generalizing b with
  | nil => exact Or.inl rfl
  | cons x as ih =>
    cases b with
    | nil => exact Or.inr rfl
    | cons y bs =>
      by_cases h : x.toNat < y.toNat
      · exact Or.inl (strLe_cons_lt x y as bs h)
      · by_cases h2 : y.toNat < x.toNat
        · exact Or.inr (strLe_cons_lt y x bs as h2)
        · rcases ih bs with h3 | h3
          · exact Or.inl (strLe_cons_eq x y as bs (by omega) h3)
          · exact Or.inr (strLe_cons_eq y x bs as (by omega) h3)

/-- The candidate list of the error message is sorted by byte order. -/
theorem sortDedup_sorted (names : List GoStr) :
    List.Pairwise (fun a b => strLe a b = true) (sortDedup names) :=
  List.sorted_mergeSort strLe_trans
    (fun a b => by rcases strLe_total a b with h | h <;> simp [h]) names.dedup

/-- The candidate list of the error message has no duplicates. -/
theorem sortDedup_nodup (names : List GoStr) : (sortDedup names).Nodup :=
  ((List.mergeSort_perm names.dedup strLe).nodup_iff).mpr (List.nodup_dedup names)

/-- Every candidate in the error message comes from the collected names. -/
theorem sortDedup_subset (names : List GoStr) (n : GoStr) (h : n ∈ sortDedup names) :
    n ∈ names :=
  List.mem_dedup.mp ((List.mergeSort_perm names.dedup strLe).mem_iff.mp h)

/-- Sorting the distinct names does not change how many there are. -/
theorem sortDedup_length (names : List GoStr) :
    (sortDedup names).length = names.dedup.length :=
  (List.mergeSort_perm names.dedup strLe).length_eq

/-- Every not-found message starts with the letter of `resource type`. -/
theorem notFoundMsg_head (rt hint : GoStr) (names : List GoStr) :
    (notFoundMsg rt hint names).head? = some 'r' := by
  have h : str "resource type " = 'r' :: str "esource type " := rfl
  unfold notFoundMsg
  rw [h]
  rfl

/-- C4: for a fixed catalog and fixed (alias, version hint) input,
    `ResolveResourceType` is deterministic: the resolved identifier depends
    only on the lower-cased alias (matching is case-insensitive over plural
    name, singular name, kind and short names), the winner is exactly the
    first-registered matching entry in catalog iteration order — with a
    non-empty hint only entries of the hinted group/version are ever
    registered, so the hinted version always wins and the overwrite rule's
    precondition never holds — and a miss yields the not-found message. -/
theorem resolve_deterministic_first_match
    (ls : List APIResourceList) (a b hint : GoStr)
    (hab : goToLower a = goToLower b) :
    ((ResolveResourceType (.ok ls) a hint).toOption
        = (ResolveResourceType (.ok ls) b hint).toOption)
  ∧ (∀ info, specFirstRegistration hint (goToLower a) ls = some info →
        ResolveResourceType (.ok ls) a hint = .ok info.gvr
          ∧ (hint ≠ [] → info.apiVersion = hint))
  ∧ (specFirstRegistration hint (goToLower a) ls = none →
        ResolveResourceType (.ok ls) a hint =
          .error (notFoundMsg a hint (buildState ls hint).allResourceNames)) := by
  refine ⟨?_, ?_, ?_⟩
  · simp only [ResolveResourceType]
    rw [hab]
    cases mapLookup (buildState ls hint).nameToResource (goToLower b) <;> rfl
  · intro info h
    constructor
    · simp only [ResolveResourceType]
      rw [lookup_buildState, h]
    · exact specFirstRegistration_version hint (goToLower a) ls info h
  · intro h
    simp only [ResolveResourceType]
    rw [lookup_buildState, h]

/-- Witness for C4: on a concrete catalog, `Pods` and `PODS` lower-case
    alike, the first registration for `pods` is the core-group entry, and
    resolution returns its group/version/resource triple. -/
theorem resolve_deterministic_first_match_witness :
    goToLower (str "Pods") = goToLower (str "PODS")
  ∧ specFirstRegistration [] (goToLower (str "Pods")) wCat =
      some ⟨⟨[], str "v1", str "pods"⟩, str "v1"⟩
  ∧ ResolveResourceType (.ok wCat) (str "Pods") [] =
      .ok ⟨[], str "v1", str "pods"⟩ :=
  ⟨by decide, by decide,
    ((resolve_deterministic_first_match wCat (str "Pods") (str "PODS") [] (by decide)).2.1
      ⟨⟨[], str "v1", str "pods"⟩, str "v1"⟩ (by decide)).1⟩

/-- C6 counterexample: the claim covers the empty catalog, but a catalog
    that is empty yet successfully fetched produces the not-found message,
    not the upstream-unavailable one; only a failed fetch produces the
    wrapped discovery error. -/
theorem empty_catalog_not_found :
    ResolveResourceType (.ok []) (str "pods") [] =
      .error (str "resource type \"pods\" not found in any available API version")
  ∧ ResolveResourceType (.error (str "connection refused")) (str "pods") [] =
      .error (str "failed to discover resources: connection refused") := by
  constructor <;> decide

/-- C6 (amended): an unreachable catalog — a failed discovery fetch — is
    wrapped as the discovery error for every alias and hint, and that
    message is distinguishable from every not-found message already by its
    first character; an empty but reachable catalog instead takes the
    not-found path. -/
theorem unreachable_catalog_upstream_error (e rt hint : GoStr) (names : List GoStr) :
    ResolveResourceType (.error e) rt hint =
      .error (str "failed to discover resources: " ++ e)
  ∧ (str "failed to discover resources: " ++ e).head? = some 'f'
  ∧ (notFoundMsg rt hint names).head? = some 'r' :=
  ⟨rfl, rfl, notFoundMsg_head rt hint names⟩

/-- C9: a miss on any catalog yields the not-found error built from the
    collected names, whose displayed candidate list — the first ten of the
    sorted distinct names — is bounded by ten, sorted, duplicate-free and
    drawn from the catalog's collected names, and whose omitted count is
    taken over the same distinct names that were sorted. -/
theorem resolve_not_found_bounded_candidates
    (ls : List APIResourceList) (rt hint : GoStr)
    (hmiss : specFirstRegistration hint (goToLower rt) ls = none) :
    ResolveResourceType (.ok ls) rt hint =
      .error (notFoundMsg rt hint (buildState ls hint).allResourceNames)
  ∧ ((sortDedup (buildState ls hint).allResourceNames).take 10).length ≤ 10
  ∧ List.Pairwise (fun a b => strLe a b = true)
      ((sortDedup (buildState ls hint).allResourceNames).take 10)
  ∧ ((sortDedup (buildState ls hint).allResourceNames).take 10).Nodup
  ∧ (∀ n ∈ (sortDedup (buildState ls hint).allResourceNames).take 10,
      n ∈ (buildState ls hint).allResourceNames)
  ∧ (sortDedup (buildState ls hint).allResourceNames).length =
      (buildState ls hint).allResourceNames.dedup.length := by
  refine ⟨?_, List.length_take_le 10 _, ?_, ?_, ?_, sortDedup_length _⟩
  · simp only [ResolveResourceType]
    rw [lookup_buildState, hmiss]
  · exact List.Pairwise.sublist (List.take_sublist 10 _) (sortDedup_sorted _)
  · exact List.Nodup.sublist (List.take_sublist 10 _) (sortDedup_nodup _)
  · intro n hn
    exact sortDedup_subset _ n (List.take_subset 10 _ hn)

/-- Witness for C9: a concrete absent alias misses the concrete catalog
    and receives its not-found message. -/
theorem resolve_not_found_bounded_candidates_witness :
    specFirstRegistration [] (goToLower (str "nope")) wCat = none
  ∧ ResolveResourceType (.ok wCat) (str "nope") [] =
      .error (notFoundMsg (str "nope") [] (buildState wCat []).allResourceNames) :=
  ⟨by decide,
    (resolve_not_found_bounded_candidates wCat (str "nope") [] (by decide)).1⟩

end kubernetes

end K8sRO
